import Mathlib

/-!
Verification development for the block/placement/replication/reconstruction
core of the cloud storage simulator (`block_manager.py`, `app.py`).

The embedding models:
* byte strings as `List Nat`;
* the MD5 digest as an explicit function parameter `hash : Bytes → Bytes`
  (the source calls `hashlib.md5(...).hexdigest()`; every theorem that needs
  collision-freedom states it as an injectivity hypothesis);
* the node registry (`storage_virtual_network.py` / `storage_virtual_node.py`,
  not present in this snapshot) as an ordered list of `Node` records — Python
  dicts preserve insertion order, which gives the stable node order that the
  round-robin placement relies on;
* the metadata store (`models.py`, not present in this snapshot) as a list of
  `FileBlock` records, appended in creation order; `db.session.add` collects
  pending records which become visible only at `db.session.commit()`;
* the physical layer (virtual disk of `virtual_disk.py`, not present in this
  snapshot, plus the filesystem fallback) as one association list keyed by
  `(nodeId, fileId, blockIndex)`: both backends address a block by the same
  logical key `"{file_id}_block_{block_id}"` scoped to a node, and
  `retrieve_block` consults both, so a single map is an exact model of what
  `store_block`/`retrieve_block` can observe.  The decimal block index
  contains no underscore, so the string key is in bijection with the triple.
-/

namespace CloudStore

abbrev Bytes := List Nat

/-- A storage node. Modelled from the spec: `storage_virtual_node.py` is not in
the snapshot; per §3 a node carries an identifier, `totalStorage`,
`usedStorage` (bytes) and a set of links to other nodes with per-link
bandwidth. CPU/memory are informational and not modelled. -/
structure Node where
  nodeId : String
  totalStorage : Nat
  usedStorage : Nat
  connections : List (String × Nat)
deriving DecidableEq

/-- A file record: `id` is the database primary key (`file.id`), `fileId` the
external string identifier (`file.file_id`) used in physical block keys. -/
structure File where
  id : Nat
  fileId : String
deriving DecidableEq

/-- A block metadata record, mirroring the `FileBlock` model
(`models.py` is absent from the snapshot; fields are those written by
`distribute_file_blocks` and read back by `reconstruct_file`). -/
structure FileBlock where
  blockId : Nat
  fileId : Nat
  nodeId : String
  blockSize : Nat
  checksum : Bytes
  isReplica : Bool
  replicaOf : Option Nat
  dataPath : String
deriving DecidableEq

/-- Physical storage: association list from `(nodeId, fileId, blockIndex)` to
the stored bytes; the head entry for a key is the current content. -/
abbrev PhysStore := List ((String × String × Nat) × Bytes)

structure SysState where
  nodes : List Node
  blocks : List FileBlock
  store : PhysStore
  dirs : List String
deriving DecidableEq

def BLOCK_SIZE : Nat := 1024 * 1024

def REPLICATION_FACTOR : Nat := 2

def emptyStr : String := ""

def underscoreBlock : String := "_block_"

def vdiskScheme : String := "vdisk://"

def slash : String := "/"

/-- Logical block key `f"{file_id}_block_{block_id}"`. -/
def storeKey (fid : String) (blockId : Nat) : String :=
  fid ++ underscoreBlock ++ toString blockId

/-- `data_path` returned by `store_block` on the virtual-disk path. -/
def vpath (nid fid : String) (blockId : Nat) : String :=
  vdiskScheme ++ nid ++ slash ++ storeKey fid blockId

/-- One iteration of the `while True` read loop in `split_file_into_blocks`:
take `BLOCK_SIZE` bytes, stop on empty read. `fuel` bounds the number of
iterations; any fuel at least the number of blocks gives the same result,
and the wrapper below passes `data.length`, which always suffices. -/
def splitGo (hash : Bytes → Bytes) : Nat → Bytes → List (Bytes × Bytes)
  | 0, _ => []
  | _, [] => []
  | fuel + 1, d :: rest =>
    ((d :: rest).take BLOCK_SIZE, hash ((d :: rest).take BLOCK_SIZE))
      :: splitGo hash fuel ((d :: rest).drop BLOCK_SIZE)

/-- `BlockManager.split_file_into_blocks`: split the input into `BLOCK_SIZE`
chunks, each paired with its content digest. -/
def splitFileIntoBlocks (hash : Bytes → Bytes) (data : Bytes) :
    List (Bytes × Bytes) :=
  splitGo hash data.length data

def nodeIds (nodes : List Node) : List String := nodes.map (·.nodeId)

/-- Core of `select_nodes_for_block` over the stable key order
`list(self.network.nodes.keys())`. -/
def selectIds (ids : List String) (blockId numReplicas : Nat) : List String :=
  if ids.length = 0 then []
  else
    (List.range (min numReplicas ids.length)).map
      (fun i => ids.getD ((blockId + i) % ids.length) emptyStr)

/-- `BlockManager.select_nodes_for_block`. -/
def selectNodesForBlock (nodes : List Node) (blockId numReplicas : Nat) :
    List String :=
  selectIds (nodeIds nodes) blockId numReplicas

/-- `BlockManager.store_block`: write the bytes under the node-scoped logical
key and return the storage location. The virtual-disk and filesystem backends
are modelled as the one key→bytes map (see the header comment). -/
def storeBlock (store : PhysStore) (blockData : Bytes) (nid fid : String)
    (blockId : Nat) : PhysStore × String :=
  (((nid, fid, blockId), blockData) :: store, vpath nid fid blockId)

def lookupStore : PhysStore → String → String → Nat → Option Bytes
  | [], _, _, _ => none
  | (k, v) :: rest, nid, fid, i =>
    if k = (nid, fid, i) then some v else lookupStore rest nid fid i

/-- `BlockManager.retrieve_block`: returns the stored bytes or nothing. -/
def retrieveBlock (store : PhysStore) (nid fid : String) (blockId : Nat) :
    Option Bytes :=
  lookupStore store nid fid blockId

/-- `node.used_storage += len(block_data)` keyed by node id; a Python dict has
unique keys, so the map touches exactly the one entry. -/
def bumpUsed (nodes : List Node) (nid : String) (sz : Nat) : List Node :=
  nodes.map (fun n =>
    if n.nodeId = nid then { n with usedStorage := n.usedStorage + sz } else n)

/-- `node.used_storage = max(0, node.used_storage - block.block_size)`;
Nat subtraction is exactly the `max 0` floor. The source guards with
`if block.node_id in self.network.nodes`; mapping over the list is a no-op
for an unregistered id, which is the same behaviour. -/
def decUsed (nodes : List Node) (nid : String) (sz : Nat) : List Node :=
  nodes.map (fun n =>
    if n.nodeId = nid then { n with usedStorage := n.usedStorage - sz } else n)

def mkPrimary (file : File) (blockId : Nat) (nid : String) (sz : Nat)
    (chk : Bytes) (path : String) : FileBlock :=
  { blockId := blockId, fileId := file.id, nodeId := nid, blockSize := sz,
    checksum := chk, isReplica := false, replicaOf := none, dataPath := path }

def mkReplica (file : File) (blockId : Nat) (nid : String) (sz : Nat)
    (chk : Bytes) (path : String) : FileBlock :=
  { blockId := blockId, fileId := file.id, nodeId := nid, blockSize := sz,
    checksum := chk, isReplica := true, replicaOf := some blockId,
    dataPath := path }

/-- The replica loop of `distribute_file_blocks` (lines 187–204): store each
replica copy, append its metadata record, bump the node's usage. -/
def storeReplicas (file : File) (blockId : Nat) (blockData chk : Bytes) :
    List String → List Node → PhysStore → List FileBlock →
    List Node × PhysStore × List FileBlock
  | [], nodes, store, pending => (nodes, store, pending)
  | rnid :: rest, nodes, store, pending =>
    let sp := storeBlock store blockData rnid file.fileId blockId
    storeReplicas file blockId blockData chk rest
      (bumpUsed nodes rnid blockData.length) sp.1
      (pending ++ [mkReplica file blockId rnid blockData.length chk sp.2])

/-- The per-block loop of `distribute_file_blocks` (lines 159–205); `pending`
is the list of records added to the session so far, committed only if the
whole loop succeeds. On the `if not node_ids: return False` branch the
session is discarded uncommitted but in-memory node/physical changes stay. -/
def storeBlocksGo (file : File) :
    List (Bytes × Bytes) → Nat → List Node → PhysStore → List FileBlock →
    Bool × List Node × PhysStore × List FileBlock
  | [], _, nodes, store, pending => (true, nodes, store, pending)
  | (blockData, chk) :: rest, blockId, nodes, store, pending =>
    match selectNodesForBlock nodes blockId REPLICATION_FACTOR with
    | [] => (false, nodes, store, pending)
    | primary :: others =>
      let sp := storeBlock store blockData primary file.fileId blockId
      let pending1 :=
        pending ++ [mkPrimary file blockId primary blockData.length chk sp.2]
      let nodes1 := bumpUsed nodes primary blockData.length
      let r := storeReplicas file blockId blockData chk others nodes1 sp.1
        pending1
      storeBlocksGo file rest (blockId + 1) r.1 r.2.1 r.2.2

/-- `sum(node.total_storage - node.used_storage for node in nodes.values())`:
the Python difference can be negative, so the sum lives in `Int`. -/
def availableStorage (nodes : List Node) : Int :=
  (nodes.map (fun n => (n.totalStorage : Int) - (n.usedStorage : Int))).sum

/-- `BlockManager.distribute_file_blocks`. -/
def distributeFileBlocks (hash : Bytes → Bytes) (st : SysState) (data : Bytes)
    (file : File) : Bool × SysState :=
  let blocksData := splitFileIntoBlocks hash data
  if blocksData.length = 0 then (false, st)
  else
    let totalSizeNeeded : Int :=
      ((blocksData.map (fun b => b.1.length)).sum * REPLICATION_FACTOR : Nat)
    if totalSizeNeeded > availableStorage st.nodes then (false, st)
    else
      match storeBlocksGo file blocksData 0 st.nodes st.store [] with
      | (true, nodes2, store2, pending) =>
        (true, { st with nodes := nodes2, store := store2,
                         blocks := st.blocks ++ pending })
      | (false, nodes2, store2, _) =>
        (false, { st with nodes := nodes2, store := store2 })

/-- Truthiness of `if block_data:` on an optional byte string: non-`None`
and non-empty. -/
def isTruthy : Option Bytes → Bool
  | some (_ :: _) => true
  | _ => false

/-- Lines 241–244: walk the replica records, keeping the last retrieval
result, stopping at the first truthy one. -/
def tryReplicasRaw (store : PhysStore) (fid : String) (blockId : Nat) :
    List FileBlock → Option Bytes → Option Bytes
  | [], acc => acc
  | r :: rest, _ =>
    let d := retrieveBlock store r.nodeId fid blockId
    if isTruthy d then d else tryReplicasRaw store fid blockId rest d

/-- Lines 260–267: accept the first replica whose retrieved bytes are truthy
and match that replica record's own stored checksum. -/
def tryReplicasChecked (hash : Bytes → Bytes) (store : PhysStore)
    (fid : String) (blockId : Nat) : List FileBlock → Option Bytes
  | [] => none
  | r :: rest =>
    match retrieveBlock store r.nodeId fid blockId with
    | some l =>
      if l = [] then tryReplicasChecked hash store fid blockId rest
      else if hash l = r.checksum then some l
      else tryReplicasChecked hash store fid blockId rest
    | none => tryReplicasChecked hash store fid blockId rest

/-- The replica query `FileBlock.query.filter_by(file_id, block_id,
is_replica=True)`, enumerated in record-insertion order. -/
def replicasFor (blocks : List FileBlock) (fileDbId blockId : Nat) :
    List FileBlock :=
  blocks.filter (fun b =>
    b.fileId == fileDbId && b.blockId == blockId && b.isReplica)

/-- The body of the per-block loop of `reconstruct_file` (lines 229–272):
primary retrieval, raw replica fallback when the primary returned nothing,
checksum verification against the primary record, checksum-checked replica
fallback on mismatch. Returns the accepted bytes, or nothing when the block
is unresolved (the loop then returns `False`). -/
def fetchBlockData (hash : Bytes → Bytes) (blocks : List FileBlock)
    (store : PhysStore) (file : File) (b : FileBlock) : Option Bytes :=
  let d0 := retrieveBlock store b.nodeId file.fileId b.blockId
  let reps := replicasFor blocks file.id b.blockId
  let d1 := match d0 with
    | none => tryReplicasRaw store file.fileId b.blockId reps none
    | some l => some l
  match d1 with
  | none => none
  | some l =>
    if hash l = b.checksum then some l
    else tryReplicasChecked hash store file.fileId b.blockId reps

/-- The per-block loop of `reconstruct_file`: on an unresolved block the
whole operation fails, with the bytes written so far left in the output. -/
def reconstructGo (hash : Bytes → Bytes) (blocks : List FileBlock)
    (store : PhysStore) (file : File) :
    List FileBlock → Bytes → Bool × Bytes
  | [], acc => (true, acc)
  | b :: rest, acc =>
    match fetchBlockData hash blocks store file b with
    | none => (false, acc)
    | some l => reconstructGo hash blocks store file rest (acc ++ l)

/-- The primary-record query of `reconstruct_file`:
`filter_by(file_id, is_replica=False).order_by(FileBlock.block_id)`,
modelled with a stable insertion sort on the block index. -/
def primaryBlocks (st : SysState) (file : File) : List FileBlock :=
  List.insertionSort (fun a b => a.blockId ≤ b.blockId)
    (st.blocks.filter (fun b => b.fileId == file.id && !b.isReplica))

/-- `BlockManager.reconstruct_file`: the `Bytes` component is the content of
the output sink (partial on failure, exactly as the source leaves a partial
file). -/
def reconstructFile (hash : Bytes → Bytes) (st : SysState) (file : File) :
    Bool × Bytes :=
  let blocks := primaryBlocks st file
  if blocks.isEmpty then (false, [])
  else reconstructGo hash st.blocks st.store file blocks []

def eraseStore (store : PhysStore) (nid fid : String) (i : Nat) : PhysStore :=
  store.filter (fun e => e.1 ≠ (nid, fid, i))

/-- The per-record loop of `delete_file_blocks`: best-effort physical
removal, then the floored usage decrement for a still-registered node.
Physical removal is modelled as erasing the entry for the record's key;
in the source `os.remove(block.data_path)` is skipped for `vdisk://`
locations, a difference no claim observes. -/
def deleteGo (fid : String) :
    List FileBlock → List Node → PhysStore → List Node × PhysStore
  | [], nodes, store => (nodes, store)
  | b :: rest, nodes, store =>
    deleteGo fid rest (decUsed nodes b.nodeId b.blockSize)
      (eraseStore store b.nodeId fid b.blockId)

/-- `BlockManager.delete_file_blocks`: always returns `True`. -/
def deleteFileBlocks (st : SysState) (file : File) : Bool × SysState :=
  let bs := st.blocks.filter (fun b => b.fileId == file.id)
  let ns := deleteGo file.fileId bs st.nodes st.store
  (true, { st with nodes := ns.1, store := ns.2,
                   blocks := st.blocks.filter (fun b => b.fileId ≠ file.id) })

inductive Op where
  | distribute (data : Bytes) (file : File)
  | delete (file : File)

def applyOp (hash : Bytes → Bytes) (st : SysState) : Op → SysState
  | .distribute data file => (distributeFileBlocks hash st data file).2
  | .delete file => (deleteFileBlocks st file).2

def applyOps (hash : Bytes → Bytes) : List Op → SysState → SysState
  | [], st => st
  | op :: rest, st => applyOps hash rest (applyOp hash st op)

def findNode : List Node → String → Option Node
  | [], _ => none
  | n :: rest, nid => if n.nodeId = nid then some n else findNode rest nid

/-- `delete_node` in `app.py` (lines 355–388): refuse when the node is not
registered or still holds data; otherwise remove its block directory, drop it
from the registry, and scrub it from every other node's connection map.
Directory removal (`shutil.rmtree`) is modelled as succeeding; the source
swallows a removal failure with a warning and proceeds identically. -/
def deleteNode (st : SysState) (nid : String) : Bool × SysState :=
  match findNode st.nodes nid with
  | none => (false, st)
  | some n =>
    if n.usedStorage > 0 then (false, st)
    else
      (true, { st with
        nodes := (st.nodes.filter (fun m => m.nodeId ≠ nid)).map
          (fun m =>
            { m with connections := m.connections.filter (fun c => c.1 ≠ nid) }),
        dirs := st.dirs.filter (fun d => d ≠ nid) })

/-! ### Chunker lemmas -/

theorem splitGo_zero (hash : Bytes → Bytes) (data : Bytes) :
    splitGo hash 0 data = [] := by
  cases data <;> rfl

theorem drop_block_len_le (d : Nat) (rest : Bytes) (fuel : Nat)
    (h : (d :: rest).length ≤ fuel + 1) :
    ((d :: rest).drop BLOCK_SIZE).length ≤ fuel := by
  simp only [List.length_cons] at h
  simp only [List.length_drop, List.length_cons]
  have : 1 ≤ BLOCK_SIZE := by norm_num [BLOCK_SIZE]
  omega

theorem splitGo_succ_nil (hash : Bytes → Bytes) (fuel : Nat) :
    splitGo hash (fuel + 1) [] = [] := rfl

theorem splitGo_succ_cons (hash : Bytes → Bytes) (fuel : Nat) (d : Nat)
    (rest : Bytes) :
    splitGo hash (fuel + 1) (d :: rest) =
      ((d :: rest).take BLOCK_SIZE, hash ((d :: rest).take BLOCK_SIZE))
        :: splitGo hash fuel ((d :: rest).drop BLOCK_SIZE) := rfl

theorem splitGo_nil (hash : Bytes → Bytes) (fuel : Nat) :
    splitGo hash fuel [] = [] := by
  cases fuel <;> rfl

theorem splitGo_fuel (hash : Bytes → Bytes) :
    ∀ (fuel1 fuel2 : Nat) (data : Bytes), data.length ≤ fuel1 →
      data.length ≤ fuel2 → splitGo hash fuel1 data = splitGo hash fuel2 data
  | 0, fuel2, data, h1, _ => by
    have : data = [] := List.eq_nil_of_length_eq_zero (Nat.le_zero.mp h1)
    subst this
    simp [splitGo_nil]
  | fuel1 + 1, fuel2, [], _, _ => by simp [splitGo_nil]
  | fuel1 + 1, fuel2, d :: rest, h1, h2 => by
    match fuel2, h2 with
    | fuel2 + 1, h2 =>
      rw [splitGo_succ_cons, splitGo_succ_cons]
      have e1 : splitGo hash fuel1 ((d :: rest).drop BLOCK_SIZE) =
          splitGo hash fuel2 ((d :: rest).drop BLOCK_SIZE) :=
        splitGo_fuel hash fuel1 fuel2 _
          (drop_block_len_le d rest fuel1 h1)
          (drop_block_len_le d rest fuel2 h2)
      rw [e1]

theorem split_eq_cons (hash : Bytes → Bytes) (d : Nat) (rest : Bytes) :
    splitFileIntoBlocks hash (d :: rest) =
      ((d :: rest).take BLOCK_SIZE, hash ((d :: rest).take BLOCK_SIZE))
        :: splitFileIntoBlocks hash ((d :: rest).drop BLOCK_SIZE) := by
  unfold splitFileIntoBlocks
  rw [show (d :: rest).length = rest.length + 1 from rfl, splitGo_succ_cons]
  congr 1
  exact splitGo_fuel hash rest.length ((d :: rest).drop BLOCK_SIZE).length _
    (drop_block_len_le d rest rest.length (Nat.le_refl _))
    (Nat.le_refl _)

theorem split_nil (hash : Bytes → Bytes) : splitFileIntoBlocks hash [] = [] :=
  rfl

theorem split_eq_nil_iff (hash : Bytes → Bytes) (data : Bytes) :
    splitFileIntoBlocks hash data = [] ↔ data = [] := by
  cases data with
  | nil => simp [split_nil]
  | cons d rest => simp [split_eq_cons]

theorem splitGo_flatten (hash : Bytes → Bytes) :
    ∀ (fuel : Nat) (data : Bytes), data.length ≤ fuel →
      ((splitGo hash fuel data).map Prod.fst).flatten = data
  | 0, data, h => by
    have : data = [] := List.eq_nil_of_length_eq_zero (Nat.le_zero.mp h)
    subst this
    simp [splitGo_nil]
  | fuel + 1, [], _ => by simp [splitGo_nil]
  | fuel + 1, d :: rest, h => by
    rw [splitGo_succ_cons]
    simp only [List.map_cons, List.flatten_cons]
    rw [splitGo_flatten hash fuel _ (drop_block_len_le d rest fuel h),
      List.take_append_drop]

theorem split_flatten (hash : Bytes → Bytes) (data : Bytes) :
    ((splitFileIntoBlocks hash data).map Prod.fst).flatten = data :=
  splitGo_flatten hash data.length data (Nat.le_refl _)

theorem split_sum_lengths (hash : Bytes → Bytes) (data : Bytes) :
    ((splitFileIntoBlocks hash data).map (fun b => b.1.length)).sum =
      data.length := by
  have h := congrArg List.length (split_flatten hash data)
  rw [List.length_flatten, List.map_map] at h
  exact h

theorem splitGo_mem (hash : Bytes → Bytes) :
    ∀ (fuel : Nat) (data : Bytes), data.length ≤ fuel →
      ∀ p ∈ splitGo hash fuel data,
        p.2 = hash p.1 ∧ p.1 ≠ [] ∧ p.1.length ≤ BLOCK_SIZE
  | 0, data, h => by
    have : data = [] := List.eq_nil_of_length_eq_zero (Nat.le_zero.mp h)
    subst this
    simp [splitGo_nil]
  | fuel + 1, [], _ => by simp [splitGo_nil]
  | fuel + 1, d :: rest, h => by
    rw [splitGo_succ_cons]
    intro p hp
    rcases List.mem_cons.mp hp with h1 | h1
    · subst h1
      refine ⟨rfl, ?_, ?_⟩
      · intro hcon
        have hc : List.take BLOCK_SIZE (d :: rest) = [] := hcon
        have hlen := congrArg List.length hc
        simp only [List.length_take, List.length_nil, List.length_cons]
          at hlen
        have : 1 ≤ BLOCK_SIZE := by norm_num [BLOCK_SIZE]
        omega
      · have hlen : (List.take BLOCK_SIZE (d :: rest)).length =
            min BLOCK_SIZE (d :: rest).length := List.length_take _ _
        simp only []
        omega
    · exact splitGo_mem hash fuel _ (drop_block_len_le d rest fuel h) p h1

theorem split_mem (hash : Bytes → Bytes) (data : Bytes) :
    ∀ p ∈ splitFileIntoBlocks hash data,
      p.2 = hash p.1 ∧ p.1 ≠ [] ∧ p.1.length ≤ BLOCK_SIZE :=
  splitGo_mem hash data.length data (Nat.le_refl _)

theorem splitGo_full_blocks (hash : Bytes → Bytes) :
    ∀ (fuel : Nat) (data : Bytes), data.length ≤ fuel →
      ∀ i, i + 1 < (splitGo hash fuel data).length →
        ((splitGo hash fuel data).getD i ([], [])).1.length = BLOCK_SIZE
  | 0, data, h => by
    have : data = [] := List.eq_nil_of_length_eq_zero (Nat.le_zero.mp h)
    subst this
    simp [splitGo_nil]
  | fuel + 1, [], _ => by simp [splitGo_nil]
  | fuel + 1, d :: rest, h => by
    rw [splitGo_succ_cons]
    intro i hi
    cases i with
    | zero =>
      simp only [List.length_cons] at hi
      have htail : splitGo hash fuel ((d :: rest).drop BLOCK_SIZE) ≠ [] := by
        intro hcon
        rw [hcon] at hi
        simp at hi
      have hdrop : (d :: rest).drop BLOCK_SIZE ≠ [] := by
        intro hcon
        rw [hcon, splitGo_nil] at htail
        exact htail rfl
      have hlen : BLOCK_SIZE < (d :: rest).length := by
        by_contra hcon
        push_neg at hcon
        exact hdrop (List.drop_eq_nil_of_le hcon)
      simp only [List.getD_cons_zero, List.length_take]
      omega
    | succ j =>
      simp only [List.getD_cons_succ]
      apply splitGo_full_blocks hash fuel _ (drop_block_len_le d rest fuel h)
      simpa using hi

theorem split_full_blocks (hash : Bytes → Bytes) (data : Bytes) :
    ∀ i, i + 1 < (splitFileIntoBlocks hash data).length →
      ((splitFileIntoBlocks hash data).getD i ([], [])).1.length =
        BLOCK_SIZE :=
  splitGo_full_blocks hash data.length data (Nat.le_refl _)

/-! ### Placement lemmas -/

theorem selectIds_nil (blockId numReplicas : Nat) :
    selectIds [] blockId numReplicas = [] := by
  simp [selectIds]

theorem selectIds_of_ne_nil (ids : List String) (blockId numReplicas : Nat)
    (h : ids ≠ []) :
    selectIds ids blockId numReplicas =
      (List.range (min numReplicas ids.length)).map
        (fun i => ids.getD ((blockId + i) % ids.length) emptyStr) := by
  have : ids.length ≠ 0 := fun hc => h (List.eq_nil_of_length_eq_zero hc)
  simp [selectIds, this]

theorem selectIds_length (ids : List String) (blockId numReplicas : Nat)
    (h : ids ≠ []) :
    (selectIds ids blockId numReplicas).length = min numReplicas ids.length := by
  rw [selectIds_of_ne_nil ids blockId numReplicas h]
  simp

theorem selectIds_ne_nil (ids : List String) (blockId numReplicas : Nat)
    (h : ids ≠ []) (hR : 1 ≤ numReplicas) :
    selectIds ids blockId numReplicas ≠ [] := by
  intro hcon
  have h1 := selectIds_length ids blockId numReplicas h
  rw [hcon] at h1
  have h2 : 0 < ids.length := List.length_pos.mpr h
  simp only [List.length_nil] at h1
  omega

theorem selectIds_subset (ids : List String) (blockId numReplicas : Nat) :
    ∀ x ∈ selectIds ids blockId numReplicas, x ∈ ids := by
  intro x hx
  rcases List.eq_nil_or_concat ids with h | _
  · rw [h, selectIds_nil] at hx
    simp at hx
  · have hne : ids ≠ [] := by
      intro hcon
      rw [hcon, selectIds_nil] at hx
      simp at hx
    rw [selectIds_of_ne_nil ids blockId numReplicas hne] at hx
    rcases List.mem_map.mp hx with ⟨i, hi, rfl⟩
    have hlt : (blockId + i) % ids.length < ids.length :=
      Nat.mod_lt _ (List.length_pos.mpr hne)
    rw [List.getD_eq_getElem _ _ hlt]
    exact List.getElem_mem hlt

theorem selectIds_nodup (ids : List String) (blockId numReplicas : Nat)
    (hnd : ids.Nodup) : (selectIds ids blockId numReplicas).Nodup := by
  rcases List.eq_nil_or_concat ids with h | _
  · rw [h, selectIds_nil]
    exact List.nodup_nil
  · by_cases hne : ids = []
    · rw [hne, selectIds_nil]
      exact List.nodup_nil
    rw [selectIds_of_ne_nil ids blockId numReplicas hne]
    have hn : 0 < ids.length := List.length_pos.mpr hne
    apply List.Nodup.map_on _ (List.nodup_range _)
    intro i hi j hj hij
    rw [List.mem_range] at hi hj
    have hi2 : i < ids.length := lt_of_lt_of_le hi (Nat.min_le_right _ _)
    have hj2 : j < ids.length := lt_of_lt_of_le hj (Nat.min_le_right _ _)
    have hmi : (blockId + i) % ids.length < ids.length := Nat.mod_lt _ hn
    have hmj : (blockId + j) % ids.length < ids.length := Nat.mod_lt _ hn
    rw [List.getD_eq_getElem _ _ hmi, List.getD_eq_getElem _ _ hmj] at hij
    have hidx : (blockId + i) % ids.length = (blockId + j) % ids.length :=
      (List.Nodup.getElem_inj_iff hnd).mp hij
    have hmod : i % ids.length = j % ids.length :=
      Nat.ModEq.add_left_cancel' blockId hidx
    rwa [Nat.mod_eq_of_lt hi2, Nat.mod_eq_of_lt hj2] at hmod

theorem nodeIds_length (nodes : List Node) :
    (nodeIds nodes).length = nodes.length := by
  simp [nodeIds]

theorem nodeIds_eq_nil_iff (nodes : List Node) :
    nodeIds nodes = [] ↔ nodes = [] := by
  simp [nodeIds]

/-- C5 counterexample input: with a single live node and replication factor
`0` the selection is empty even though a live node exists, refuting the
claimed equivalence as universally stated over the replication factor. -/
theorem select_empty_with_live_node :
    selectNodesForBlock [⟨"cx", 1, 0, []⟩] 0 0 = [] ∧
      ([(⟨"cx", 1, 0, []⟩ : Node)] ≠ []) := by
  constructor
  · rfl
  · simp

/-- C5 (amended): for a replication factor of at least 1, selection is the
round-robin window of `min R n` node ids starting at offset `i mod n`, and it
is empty exactly when there are zero live nodes. -/
theorem select_round_robin (nodes : List Node) (i R : Nat) (hR : 1 ≤ R) :
    selectNodesForBlock nodes i R =
      (List.range (min R nodes.length)).map
        (fun j => (nodeIds nodes).getD ((i + j) % nodes.length) emptyStr)
  ∧ (selectNodesForBlock nodes i R = [] ↔ nodes = []) := by
  constructor
  · by_cases h : nodes = []
    · subst h
      simp [selectNodesForBlock, nodeIds, selectIds_nil]
    · have hne : nodeIds nodes ≠ [] := by
        simpa [nodeIds_eq_nil_iff] using h
      rw [selectNodesForBlock, selectIds_of_ne_nil _ _ _ hne, nodeIds_length]
  · constructor
    · intro hcon
      by_contra hne
      have : nodeIds nodes ≠ [] := by simpa [nodeIds_eq_nil_iff] using hne
      exact selectIds_ne_nil _ i R this hR hcon
    · intro h
      subst h
      simp [selectNodesForBlock, nodeIds, selectIds_nil]

/-- C5 witness: the amended round-robin statement evaluated at a concrete
two-node registry, block index 3, replication factor 2. -/
theorem select_round_robin_witness :
    selectNodesForBlock [⟨"a0", 1, 0, []⟩, ⟨"b0", 2, 0, []⟩] 3 2 =
      (List.range (min 2 2)).map
        (fun j => (nodeIds [⟨"a0", 1, 0, []⟩, ⟨"b0", 2, 0, []⟩]).getD
          ((3 + j) % 2) emptyStr)
  ∧ (selectNodesForBlock [⟨"a0", 1, 0, []⟩, ⟨"b0", 2, 0, []⟩] 3 2 = [] ↔
      ([⟨"a0", 1, 0, []⟩, ⟨"b0", 2, 0, []⟩] : List Node) = []) :=
  select_round_robin [⟨"a0", 1, 0, []⟩, ⟨"b0", 2, 0, []⟩] 3 2 (by decide)

theorem distribute_of_split_nil (hash : Bytes → Bytes) (st : SysState)
    (data : Bytes) (file : File)
    (h : splitFileIntoBlocks hash data = []) :
    distributeFileBlocks hash st data file = (false, st) := by
  unfold distributeFileBlocks
  simp [h]

/-- C8: the chunker splits the input into blocks whose concatenation is the
input, every block carries the digest of its own bytes, every block except
possibly the last is exactly `BLOCK_SIZE` long, every block is non-empty and
at most `BLOCK_SIZE` long, the result is empty exactly for empty input, and
`distribute` treats an empty input as a failure with no state change. -/
theorem chunker_contract (hash : Bytes → Bytes) (data : Bytes) :
    ((splitFileIntoBlocks hash data).map Prod.fst).flatten = data
  ∧ (∀ p ∈ splitFileIntoBlocks hash data,
      p.2 = hash p.1 ∧ p.1 ≠ [] ∧ p.1.length ≤ BLOCK_SIZE)
  ∧ (∀ i, i + 1 < (splitFileIntoBlocks hash data).length →
      ((splitFileIntoBlocks hash data).getD i ([], [])).1.length = BLOCK_SIZE)
  ∧ (splitFileIntoBlocks hash data = [] ↔ data = [])
  ∧ (∀ (st : SysState) (file : File), data = [] →
      distributeFileBlocks hash st data file = (false, st)) :=
  ⟨split_flatten hash data, split_mem hash data, split_full_blocks hash data,
    split_eq_nil_iff hash data,
    fun st file h =>
      distribute_of_split_nil hash st data file
        (by rw [h]; exact split_nil hash)⟩

/-- C8 witness: the contract applied at a concrete two-byte input and at the
empty input. -/
theorem chunker_contract_witness :
    ((splitFileIntoBlocks (fun l => l) [3, 4]).map Prod.fst).flatten = [3, 4]
  ∧ distributeFileBlocks (fun l => l) ⟨[], [], [], []⟩ [] ⟨0, emptyStr⟩ =
      (false, ⟨[], [], [], []⟩) :=
  ⟨(chunker_contract (fun l => l) [3, 4]).1,
    (chunker_contract (fun l => l) []).2.2.2.2 ⟨[], [], [], []⟩ ⟨0, emptyStr⟩
      rfl⟩

/-- C2: when the total block bytes times the replication factor exceed the
aggregate free capacity, `distribute` fails and returns the state literally
unchanged: no metadata records, no physical writes, no usage change. -/
theorem atomic_precheck (hash : Bytes → Bytes) (st : SysState) (data : Bytes)
    (file : File)
    (h : ((data.length * REPLICATION_FACTOR : Nat) : Int) >
      availableStorage st.nodes) :
    distributeFileBlocks hash st data file = (false, st) := by
  unfold distributeFileBlocks
  by_cases hbd : (splitFileIntoBlocks hash data).length = 0
  · simp [hbd]
  · have hsum : ((splitFileIntoBlocks hash data).map
        (fun b => b.1.length)).sum = data.length := split_sum_lengths hash data
    simp only [hbd, if_false, hsum]
    rw [if_pos h]

/-- C2 witness: one node with 1 free byte, a 2-byte input needing 4 bytes. -/
theorem atomic_precheck_witness :
    distributeFileBlocks (fun l => l) ⟨[⟨"w2", 1, 0, []⟩], [], [], []⟩ [1, 2]
      ⟨0, emptyStr⟩ = (false, ⟨[⟨"w2", 1, 0, []⟩], [], [], []⟩) :=
  atomic_precheck (fun l => l) ⟨[⟨"w2", 1, 0, []⟩], [], [], []⟩ [1, 2]
    ⟨0, emptyStr⟩ (by decide)

/-! ### Characterization of the distribute loop -/

/-- The metadata records `distribute_file_blocks` creates for the block at
index `i` with bytes `d` and digest `c`: one primary on the first selected
node, one replica per remaining selected node. -/
def blockRecsAt (file : File) (ids : List String) (i : Nat) (d c : Bytes) :
    List FileBlock :=
  match selectIds ids i REPLICATION_FACTOR with
  | [] => []
  | p :: others =>
    mkPrimary file i p d.length c (vpath p file.fileId i)
      :: others.map (fun rnid =>
          mkReplica file i rnid d.length c (vpath rnid file.fileId i))

/-- All records created for the block list `bd` starting at index `k`. -/
def allRecs (file : File) (ids : List String) :
    Nat → List (Bytes × Bytes) → List FileBlock
  | _, [] => []
  | k, (d, c) :: rest =>
    blockRecsAt file ids k d c ++ allRecs file ids (k + 1) rest

/-- Bytes a given node id gains during distribution of `bd` from index `k`. -/
def addedBytes (ids : List String) (nid : String) :
    Nat → List (Bytes × Bytes) → Nat
  | _, [] => 0
  | k, (d, _) :: rest =>
    (selectIds ids k REPLICATION_FACTOR).count nid * d.length +
      addedBytes ids nid (k + 1) rest

/-- Sequential usage bumps for each selected node id. -/
def bumpSel (sz : Nat) : List String → List Node → List Node
  | [], nodes => nodes
  | nid :: rest, nodes => bumpSel sz rest (bumpUsed nodes nid sz)

/-- Sequential physical writes of the same bytes for each selected node id. -/
def writeAll (store : PhysStore) (d : Bytes) (fid : String) (i : Nat) :
    List String → PhysStore
  | [] => store
  | nid :: rest => writeAll (((nid, fid, i), d) :: store) d fid i rest

theorem nodeIds_map (g : Node → Node) (h : ∀ n, (g n).nodeId = n.nodeId)
    (nodes : List Node) : nodeIds (nodes.map g) = nodeIds nodes := by
  simp only [nodeIds, List.map_map]
  exact List.map_congr_left (fun n _ => h n)

theorem bumpUsed_eq_map (nodes : List Node) (nid : String) (sz : Nat) :
    bumpUsed nodes nid sz = nodes.map (fun m =>
      { m with usedStorage := m.usedStorage +
          (if m.nodeId = nid then sz else 0) }) := by
  unfold bumpUsed
  apply List.map_congr_left
  intro m _
  by_cases h : m.nodeId = nid <;> simp [h]

theorem bumpSel_eq_map (sz : Nat) :
    ∀ (sel : List String) (nodes : List Node),
      bumpSel sz sel nodes = nodes.map (fun m =>
        { m with usedStorage := m.usedStorage + sel.count m.nodeId * sz })
  | [], nodes => by
    simp only [bumpSel]
    conv_lhs => rw [show nodes = nodes.map id from (List.map_id nodes).symm]
    apply List.map_congr_left
    intro m _
    simp
  | nid :: rest, nodes => by
    simp only [bumpSel]
    rw [bumpSel_eq_map sz rest (bumpUsed nodes nid sz), bumpUsed_eq_map,
      List.map_map]
    apply List.map_congr_left
    intro m _
    simp only [Function.comp_apply, Node.mk.injEq, true_and, and_true]
    by_cases h : m.nodeId = nid
    · have hb : (nid == m.nodeId) = true := by simp [beq_iff_eq, h]
      simp only [if_pos h, List.count_cons, hb, if_true]
      rw [Nat.add_mul, Nat.one_mul]
      omega
    · have hb : (nid == m.nodeId) = false := by
        simp only [beq_eq_false_iff_ne, ne_eq]
        intro hc
        exact h hc.symm
      simp [if_neg h, List.count_cons, hb]

theorem bumpSel_nodeIds (sz : Nat) (sel : List String) (nodes : List Node) :
    nodeIds (bumpSel sz sel nodes) = nodeIds nodes := by
  rw [bumpSel_eq_map]
  exact nodeIds_map
    (fun m =>
      { m with usedStorage := m.usedStorage + sel.count m.nodeId * sz })
    (fun n => rfl) nodes

theorem lookupStore_cons (k : String × String × Nat) (v : Bytes)
    (store : PhysStore) (nid fid : String) (i : Nat) :
    lookupStore ((k, v) :: store) nid fid i =
      if k = (nid, fid, i) then some v else lookupStore store nid fid i := rfl

theorem writeAll_lookup (d : Bytes) (fid : String) (i : Nat) :
    ∀ (sel : List String) (store : PhysStore) (nid fid2 : String) (j : Nat),
      lookupStore (writeAll store d fid i sel) nid fid2 j =
        if nid ∈ sel ∧ fid2 = fid ∧ j = i then some d
        else lookupStore store nid fid2 j
  | [], store, nid, fid2, j => by simp [writeAll]
  | s :: rest, store, nid, fid2, j => by
    simp only [writeAll]
    rw [writeAll_lookup d fid i rest, lookupStore_cons]
    by_cases h1 : nid ∈ rest <;> by_cases h2 : s = nid <;>
      by_cases h3 : fid = fid2 <;> by_cases h4 : i = j <;>
        simp_all [Prod.ext_iff, List.mem_cons, eq_comm]

theorem storeReplicas_eq (file : File) (blockId : Nat) (d chk : Bytes) :
    ∀ (rs : List String) (nodes : List Node) (store : PhysStore)
      (pending : List FileBlock),
      storeReplicas file blockId d chk rs nodes store pending =
        (bumpSel d.length rs nodes, writeAll store d file.fileId blockId rs,
          pending ++ rs.map (fun rnid =>
            mkReplica file blockId rnid d.length chk
              (vpath rnid file.fileId blockId)))
  | [], nodes, store, pending => by simp [storeReplicas, bumpSel, writeAll]
  | rnid :: rest, nodes, store, pending => by
    simp only [storeReplicas, storeBlock]
    rw [storeReplicas_eq file blockId d chk rest]
    simp [bumpSel, writeAll]

theorem rep_factor_pos : 1 ≤ REPLICATION_FACTOR := by
  norm_num [REPLICATION_FACTOR]

/-- One iteration of the per-block loop, assuming at least one live node. -/
theorem storeBlocksGo_cons (file : File) (d c : Bytes)
    (rest : List (Bytes × Bytes)) (k : Nat) (nodes : List Node)
    (store : PhysStore) (pending : List FileBlock)
    (hne : nodeIds nodes ≠ []) :
    storeBlocksGo file ((d, c) :: rest) k nodes store pending =
      storeBlocksGo file rest (k + 1)
        (bumpSel d.length (selectIds (nodeIds nodes) k REPLICATION_FACTOR)
          nodes)
        (writeAll store d file.fileId k
          (selectIds (nodeIds nodes) k REPLICATION_FACTOR))
        (pending ++ blockRecsAt file (nodeIds nodes) k d c) := by
  have hsel : selectNodesForBlock nodes k REPLICATION_FACTOR =
      selectIds (nodeIds nodes) k REPLICATION_FACTOR := rfl
  cases hs : selectIds (nodeIds nodes) k REPLICATION_FACTOR with
  | nil => exact absurd hs (selectIds_ne_nil _ k _ hne rep_factor_pos)
  | cons p others =>
    simp only [storeBlocksGo, hsel, hs, storeBlock]
    rw [storeReplicas_eq]
    simp only [blockRecsAt, hs, bumpSel, writeAll, List.append_assoc,
      List.singleton_append]

theorem storeBlocksGo_nil_ids (file : File) (d c : Bytes)
    (rest : List (Bytes × Bytes)) (k : Nat) (nodes : List Node)
    (store : PhysStore) (pending : List FileBlock)
    (h : nodeIds nodes = []) :
    storeBlocksGo file ((d, c) :: rest) k nodes store pending =
      (false, nodes, store, pending) := by
  have hsel : selectNodesForBlock nodes k REPLICATION_FACTOR = [] := by
    rw [selectNodesForBlock, h, selectIds_nil]
  simp [storeBlocksGo, hsel]

theorem storeBlocksGo_fst (file : File) :
    ∀ (bd : List (Bytes × Bytes)) (k : Nat) (nodes : List Node)
      (store : PhysStore) (pending : List FileBlock),
      nodeIds nodes ≠ [] →
      (storeBlocksGo file bd k nodes store pending).1 = true
  | [], k, nodes, store, pending, _ => rfl
  | (d, c) :: rest, k, nodes, store, pending, hne => by
    rw [storeBlocksGo_cons file d c rest k nodes store pending hne]
    exact storeBlocksGo_fst file rest (k + 1) _ _ _
      (by rw [bumpSel_nodeIds]; exact hne)

theorem storeBlocksGo_pending (file : File) :
    ∀ (bd : List (Bytes × Bytes)) (k : Nat) (nodes : List Node)
      (store : PhysStore) (pending : List FileBlock),
      nodeIds nodes ≠ [] →
      (storeBlocksGo file bd k nodes store pending).2.2.2 =
        pending ++ allRecs file (nodeIds nodes) k bd
  | [], k, nodes, store, pending, _ => by simp [storeBlocksGo, allRecs]
  | (d, c) :: rest, k, nodes, store, pending, hne => by
    rw [storeBlocksGo_cons file d c rest k nodes store pending hne]
    rw [storeBlocksGo_pending file rest (k + 1) _ _ _
      (by rw [bumpSel_nodeIds]; exact hne)]
    rw [bumpSel_nodeIds, List.append_assoc]
    simp [allRecs]

theorem storeBlocksGo_nodes (file : File) :
    ∀ (bd : List (Bytes × Bytes)) (k : Nat) (nodes : List Node)
      (store : PhysStore) (pending : List FileBlock),
      nodeIds nodes ≠ [] →
      (storeBlocksGo file bd k nodes store pending).2.1 =
        nodes.map (fun m =>
          { m with usedStorage := m.usedStorage +
              addedBytes (nodeIds nodes) m.nodeId k bd })
  | [], k, nodes, store, pending, _ => by
    have hmap : nodes.map (fun m =>
        { m with usedStorage := m.usedStorage +
            addedBytes (nodeIds nodes) m.nodeId k [] }) = nodes := by
      conv_rhs => rw [← List.map_id nodes]
      apply List.map_congr_left
      intro m _
      simp [addedBytes]
    rw [hmap]
    rfl
  | (d, c) :: rest, k, nodes, store, pending, hne => by
    rw [storeBlocksGo_cons file d c rest k nodes store pending hne]
    rw [storeBlocksGo_nodes file rest (k + 1) _ _ _
      (by rw [bumpSel_nodeIds]; exact hne)]
    rw [bumpSel_nodeIds, bumpSel_eq_map, List.map_map]
    apply List.map_congr_left
    intro m _
    simp only [Function.comp_apply, Node.mk.injEq, true_and, and_true]
    simp only [addedBytes]
    omega

theorem storeBlocksGo_lookup (file : File) :
    ∀ (bd : List (Bytes × Bytes)) (k : Nat) (nodes : List Node)
      (store : PhysStore) (pending : List FileBlock),
      nodeIds nodes ≠ [] →
      ∀ (nid fid2 : String) (j : Nat),
        retrieveBlock (storeBlocksGo file bd k nodes store pending).2.2.1
            nid fid2 j =
          if nid ∈ selectIds (nodeIds nodes) j REPLICATION_FACTOR ∧
              fid2 = file.fileId ∧ k ≤ j ∧ j < k + bd.length
          then some ((bd.getD (j - k) ([], [])).1)
          else retrieveBlock store nid fid2 j
  | [], k, nodes, store, pending, hne, nid, fid2, j => by
    simp only [storeBlocksGo, List.length_nil]
    rw [if_neg]
    omega
  | (d, c) :: rest, k, nodes, store, pending, hne, nid, fid2, j => by
    rw [storeBlocksGo_cons file d c rest k nodes store pending hne]
    have hids : nodeIds (bumpSel d.length
        (selectIds (nodeIds nodes) k REPLICATION_FACTOR) nodes) =
        nodeIds nodes := bumpSel_nodeIds _ _ _
    have hne2 : nodeIds (bumpSel d.length
        (selectIds (nodeIds nodes) k REPLICATION_FACTOR) nodes) ≠ [] := by
      rw [hids]; exact hne
    rw [storeBlocksGo_lookup file rest (k + 1) _ _ _ hne2 nid fid2 j, hids]
    by_cases hjk : j = k
    · subst hjk
      have hrest : ¬(nid ∈ selectIds (nodeIds nodes) j REPLICATION_FACTOR ∧
          fid2 = file.fileId ∧ j + 1 ≤ j ∧ j < j + 1 + rest.length) := by
        intro hcon
        omega
      rw [if_neg hrest, retrieveBlock, writeAll_lookup]
      by_cases hm : nid ∈ selectIds (nodeIds nodes) j REPLICATION_FACTOR
      · by_cases hf : fid2 = file.fileId
        · have hin : j ≤ j ∧ j < j + ((d, c) :: rest).length := by
            simp only [List.length_cons]
            omega
          rw [if_pos ⟨hm, hf, rfl⟩, if_pos ⟨hm, hf, hin.1, hin.2⟩]
          simp
        · have ho : ¬(nid ∈ selectIds (nodeIds nodes) j REPLICATION_FACTOR ∧
              fid2 = file.fileId ∧ j = j) := fun hcon => hf hcon.2.1
          have ho2 : ¬(nid ∈ selectIds (nodeIds nodes) j
              REPLICATION_FACTOR ∧ fid2 = file.fileId ∧ j ≤ j ∧
              j < j + ((d, c) :: rest).length) := fun hcon => hf hcon.2.1
          rw [if_neg ho, if_neg ho2]
          rfl
      · have hp : ¬(nid ∈ selectIds (nodeIds nodes) j REPLICATION_FACTOR ∧
            fid2 = file.fileId ∧ j = j) := fun hcon => hm hcon.1
        have hp2 : ¬(nid ∈ selectIds (nodeIds nodes) j REPLICATION_FACTOR ∧
            fid2 = file.fileId ∧ j ≤ j ∧
            j < j + ((d, c) :: rest).length) := fun hcon => hm hcon.1
        rw [if_neg hp, if_neg hp2]
        rfl
    · by_cases hcond : nid ∈ selectIds (nodeIds nodes) j
          REPLICATION_FACTOR ∧ fid2 = file.fileId ∧
          k ≤ j ∧ j < k + ((d, c) :: rest).length
      · have hin : nid ∈ selectIds (nodeIds nodes) j REPLICATION_FACTOR ∧
            fid2 = file.fileId ∧ k + 1 ≤ j ∧ j < k + 1 + rest.length := by
          refine ⟨hcond.1, hcond.2.1, by omega, ?_⟩
          have := hcond.2.2.2
          simp only [List.length_cons] at this
          omega
        have hget : rest.getD (j - (k + 1)) ([], []) =
            (((d, c) :: rest).getD (j - k) ([], [])) := by
          have hx : j - k = (j - (k + 1)) + 1 := by omega
          rw [hx, List.getD_cons_succ]
        rw [if_pos hin, if_pos hcond, hget]
      · have h1 : ¬(nid ∈ selectIds (nodeIds nodes) j REPLICATION_FACTOR ∧
            fid2 = file.fileId ∧ k + 1 ≤ j ∧ j < k + 1 + rest.length) := by
          intro hcon
          apply hcond
          refine ⟨hcon.1, hcon.2.1, by omega, ?_⟩
          simp only [List.length_cons]
          omega
        have h2 : ¬(nid ∈ selectIds (nodeIds nodes) k REPLICATION_FACTOR ∧
            fid2 = file.fileId ∧ j = k) := fun hcon => hjk hcon.2.2
        rw [if_neg h1, if_neg hcond, retrieveBlock, writeAll_lookup,
          if_neg h2]
        rfl

/-- The usage bump a node receives over a whole distribution. -/
def addUsed (ids : List String) (bd : List (Bytes × Bytes)) (m : Node) :
    Node :=
  { m with usedStorage := m.usedStorage + addedBytes ids m.nodeId 0 bd }

/-- Inversion of a successful `distribute`: the input chunked into at least
one block, at least one node was live, the aggregate precheck passed, and the
resulting state is characterized componentwise. -/
theorem distribute_true_inv (hash : Bytes → Bytes) (st : SysState)
    (data : Bytes) (file : File) (st2 : SysState)
    (hdist : distributeFileBlocks hash st data file = (true, st2)) :
    splitFileIntoBlocks hash data ≠ []
  ∧ nodeIds st.nodes ≠ []
  ∧ ¬((((splitFileIntoBlocks hash data).map (fun b => b.1.length)).sum *
        REPLICATION_FACTOR : Nat) : Int) > availableStorage st.nodes
  ∧ st2.nodes = st.nodes.map
      (addUsed (nodeIds st.nodes) (splitFileIntoBlocks hash data))
  ∧ st2.blocks = st.blocks ++
      allRecs file (nodeIds st.nodes) 0 (splitFileIntoBlocks hash data)
  ∧ (∀ (nid fid2 : String) (j : Nat),
      retrieveBlock st2.store nid fid2 j =
        if nid ∈ selectIds (nodeIds st.nodes) j REPLICATION_FACTOR ∧
            fid2 = file.fileId ∧ 0 ≤ j ∧
            j < 0 + (splitFileIntoBlocks hash data).length
        then some (((splitFileIntoBlocks hash data).getD (j - 0) ([], [])).1)
        else retrieveBlock st.store nid fid2 j)
  ∧ st2.dirs = st.dirs := by
  simp only [distributeFileBlocks] at hdist
  by_cases hbd0 : (splitFileIntoBlocks hash data).length = 0
  · rw [if_pos hbd0] at hdist
    exact absurd (congrArg Prod.fst hdist) (by simp)
  · rw [if_neg hbd0] at hdist
    by_cases hcap : ((((splitFileIntoBlocks hash data).map
        (fun b => b.1.length)).sum * REPLICATION_FACTOR : Nat) : Int) >
        availableStorage st.nodes
    · rw [if_pos hcap] at hdist
      exact absurd (congrArg Prod.fst hdist) (by simp)
    · rw [if_neg hcap] at hdist
      have hbd : splitFileIntoBlocks hash data ≠ [] := by
        intro h
        exact hbd0 (by rw [h]; rfl)
      obtain ⟨b, ns, so, pend, hsb⟩ :
          ∃ b ns so pend, storeBlocksGo file (splitFileIntoBlocks hash data)
            0 st.nodes st.store [] = (b, ns, so, pend) :=
        ⟨_, _, _, _, rfl⟩
      have hids : nodeIds st.nodes ≠ [] := by
        intro hnil
        cases hbde : splitFileIntoBlocks hash data with
        | nil => exact hbd hbde
        | cons p rest =>
          obtain ⟨d, c⟩ := p
          rw [hbde] at hdist
          rw [storeBlocksGo_nil_ids file d c rest 0 st.nodes st.store []
            hnil] at hdist
          simp at hdist
      have hfst : b = true := by
        have h := storeBlocksGo_fst file (splitFileIntoBlocks hash data) 0
          st.nodes st.store [] hids
        rw [hsb] at h
        exact h
      subst hfst
      rw [hsb] at hdist
      have hpair : (true, SysState.mk ns (st.blocks ++ pend) so st.dirs) =
          (true, st2) := hdist
      have hst2 : SysState.mk ns (st.blocks ++ pend) so st.dirs = st2 :=
        congrArg Prod.snd hpair
      have hns : ns = st.nodes.map
          (addUsed (nodeIds st.nodes) (splitFileIntoBlocks hash data)) := by
        have h := storeBlocksGo_nodes file (splitFileIntoBlocks hash data) 0
          st.nodes st.store [] hids
        rw [hsb] at h
        exact h
      have hpend : pend =
          allRecs file (nodeIds st.nodes) 0 (splitFileIntoBlocks hash data)
          := by
        have h := storeBlocksGo_pending file (splitFileIntoBlocks hash data)
          0 st.nodes st.store [] hids
        rw [hsb] at h
        simpa using h
      have hso : ∀ (nid fid2 : String) (j : Nat),
          retrieveBlock so nid fid2 j =
            if nid ∈ selectIds (nodeIds st.nodes) j REPLICATION_FACTOR ∧
                fid2 = file.fileId ∧ 0 ≤ j ∧
                j < 0 + (splitFileIntoBlocks hash data).length
            then some
              (((splitFileIntoBlocks hash data).getD (j - 0) ([], [])).1)
            else retrieveBlock st.store nid fid2 j := by
        intro nid fid2 j
        have h := storeBlocksGo_lookup file (splitFileIntoBlocks hash data) 0
          st.nodes st.store [] hids nid fid2 j
        rw [hsb] at h
        exact h
      subst hst2
      exact ⟨hbd, hids, hcap, hns, by rw [hpend], hso, rfl⟩

/-- C10: for a non-empty input whose aggregate requirement passes the
precheck, the node set is necessarily non-empty, node selection is non-empty
for every block index, and `distribute` succeeds — the `if not node_ids:
return False` abort branch inside the storage loop is never taken. -/
theorem precheck_implies_success (hash : Bytes → Bytes) (st : SysState)
    (data : Bytes) (file : File)
    (hdata : data ≠ [])
    (hcap : ((data.length * REPLICATION_FACTOR : Nat) : Int) ≤
      availableStorage st.nodes) :
    st.nodes ≠ []
  ∧ (∀ k, selectNodesForBlock st.nodes k REPLICATION_FACTOR ≠ [])
  ∧ (distributeFileBlocks hash st data file).1 = true := by
  have hlen : 1 ≤ data.length := by
    cases data with
    | nil => exact absurd rfl hdata
    | cons a l => simp
  have hpos : (0 : Int) < ((data.length * REPLICATION_FACTOR : Nat) : Int) :=
    by
    have : 1 ≤ data.length * REPLICATION_FACTOR := by
      have := rep_factor_pos
      calc 1 = 1 * 1 := by omega
      _ ≤ data.length * REPLICATION_FACTOR := Nat.mul_le_mul hlen this
    exact_mod_cast this
  have hnodes : st.nodes ≠ [] := by
    intro hnil
    rw [hnil] at hcap
    simp [availableStorage] at hcap
    omega
  have hids : nodeIds st.nodes ≠ [] := by
    simpa [nodeIds_eq_nil_iff] using hnodes
  refine ⟨hnodes, fun k => selectIds_ne_nil _ k _ hids rep_factor_pos, ?_⟩
  have hbd0 : ¬(splitFileIntoBlocks hash data).length = 0 := by
    intro h
    have := (split_eq_nil_iff hash data).mp (List.eq_nil_of_length_eq_zero h)
    exact hdata this
  have hsum : ((splitFileIntoBlocks hash data).map
      (fun b => b.1.length)).sum = data.length := split_sum_lengths hash data
  simp only [distributeFileBlocks, hbd0, if_false, hsum]
  rw [if_neg (by omega : ¬((data.length * REPLICATION_FACTOR : Nat) : Int) >
    availableStorage st.nodes)]
  obtain ⟨b, ns, so, pend, hsb⟩ :
      ∃ b ns so pend, storeBlocksGo file (splitFileIntoBlocks hash data)
        0 st.nodes st.store [] = (b, ns, so, pend) := ⟨_, _, _, _, rfl⟩
  have hfst : b = true := by
    have h := storeBlocksGo_fst file (splitFileIntoBlocks hash data) 0
      st.nodes st.store [] hids
    rw [hsb] at h
    exact h
  subst hfst
  rw [hsb]

/-- C10 witness: one node with 10 free bytes, a 1-byte input (needs 2). -/
theorem precheck_implies_success_witness :
    ([(⟨"w10", 10, 0, []⟩ : Node)] ≠ [])
  ∧ (∀ k, selectNodesForBlock [⟨"w10", 10, 0, []⟩] k REPLICATION_FACTOR ≠ [])
  ∧ (distributeFileBlocks (fun l => l) ⟨[⟨"w10", 10, 0, []⟩], [], [], []⟩ [1]
      ⟨0, emptyStr⟩).1 = true :=
  precheck_implies_success (fun l => l) ⟨[⟨"w10", 10, 0, []⟩], [], [], []⟩ [1]
    ⟨0, emptyStr⟩ (by decide) (by decide)

/-- C3 counterexample: two nodes, the first with zero capacity; the aggregate
precheck passes (2 needed, 10 free in aggregate), distribute succeeds, and
the zero-capacity node ends with `usedStorage = 1 > 0 = totalStorage`, so the
per-node invariant is not guaranteed by the aggregate-only precheck. -/
theorem per_node_capacity_violated :
    (distributeFileBlocks (fun l => l)
      ⟨[⟨"a", 0, 0, []⟩, ⟨"b", 10, 0, []⟩], [], [], []⟩ [1] ⟨0, emptyStr⟩).1 =
        true
  ∧ ∃ n ∈ (distributeFileBlocks (fun l => l)
      ⟨[⟨"a", 0, 0, []⟩, ⟨"b", 10, 0, []⟩], [], [], []⟩ [1]
        ⟨0, emptyStr⟩).2.nodes,
      n.totalStorage < n.usedStorage := by
  decide

/-! ### Aggregate capacity accounting -/

theorem sum_map_add_nat {α : Type} (f g : α → Nat) (l : List α) :
    (l.map (fun x => f x + g x)).sum = (l.map f).sum + (l.map g).sum := by
  induction l with
  | nil => simp
  | cons a rest ih =>
    simp only [List.map_cons, List.sum_cons, ih]
    omega

theorem sum_map_mul_right {α : Type} (f : α → Nat) (c : Nat) (l : List α) :
    (l.map (fun x => f x * c)).sum = (l.map f).sum * c := by
  induction l with
  | nil => simp
  | cons a rest ih => simp [ih, Nat.add_mul]

theorem sum_indicator_zero (s : String) (ids : List String) (h : s ∉ ids) :
    ((ids.map (fun x => if x == s then 1 else 0)).sum) = 0 := by
  induction ids with
  | nil => simp
  | cons a rest ih =>
    simp only [List.mem_cons, not_or] at h
    have hne : (a == s) = false := by
      simp only [beq_eq_false_iff_ne, ne_eq]
      intro hc
      exact h.1 hc.symm
    simp only [List.map_cons, List.sum_cons, hne]
    simpa using ih h.2

theorem sum_indicator_one (s : String) :
    ∀ ids : List String, ids.Nodup → s ∈ ids →
      ((ids.map (fun x => if x == s then 1 else 0)).sum) = 1
  | [], _, h => by simp at h
  | a :: rest, hnd, h => by
    rcases List.mem_cons.mp h with h1 | h1
    · subst h1
      have hs : s ∉ rest := (List.nodup_cons.mp hnd).1
      simp only [List.map_cons, List.sum_cons, beq_self_eq_true, if_true,
        sum_indicator_zero s rest hs]
    · have hne : (a == s) = false := by
        simp only [beq_eq_false_iff_ne, ne_eq]
        intro hc
        subst hc
        exact (List.nodup_cons.mp hnd).1 h1
      simp only [List.map_cons, List.sum_cons, hne]
      simpa using sum_indicator_one s rest (List.nodup_cons.mp hnd).2 h1

theorem sum_count_eq_length (ids : List String) (hnd : ids.Nodup) :
    ∀ sel : List String, (∀ x ∈ sel, x ∈ ids) →
      ((ids.map (fun x => sel.count x)).sum) = sel.length
  | [], _ => by simp
  | s :: rest, hsub => by
    have h1 : (ids.map (fun x => (s :: rest).count x)).sum =
        (ids.map (fun x => rest.count x + (if x == s then 1 else 0))).sum :=
      by
      congr 1
      apply List.map_congr_left
      intro x _
      rw [List.count_cons]
      congr 1
      by_cases hxs : x = s
      · subst hxs
        rfl
      · have hb1 : (s == x) = false := by
          simp only [beq_eq_false_iff_ne, ne_eq]
          intro hc
          exact hxs hc.symm
        have hb2 : (x == s) = false := by
          simp only [beq_eq_false_iff_ne, ne_eq]
          exact hxs
        rw [hb1, hb2]
    rw [h1, sum_map_add_nat,
      sum_count_eq_length ids hnd rest
        (fun x hx => hsub x (List.mem_cons_of_mem s hx)),
      sum_indicator_one s ids hnd (hsub s (List.mem_cons_self s rest))]
    simp

theorem selectIds_length_le (ids : List String) (k : Nat) :
    (selectIds ids k REPLICATION_FACTOR).length ≤ REPLICATION_FACTOR := by
  by_cases hids : ids = []
  · simp [hids, selectIds_nil]
  · rw [selectIds_length _ _ _ hids]
    exact Nat.min_le_left _ _

theorem sum_addedBytes_le (ids : List String) (hnd : ids.Nodup) :
    ∀ (bd : List (Bytes × Bytes)) (k : Nat),
      ((ids.map (fun x => addedBytes ids x k bd)).sum) ≤
        ((bd.map (fun b => b.1.length)).sum) * REPLICATION_FACTOR
  | [], k => by simp [addedBytes]
  | (d, c) :: rest, k => by
    have hsplit : (ids.map (fun x =>
        addedBytes ids x k ((d, c) :: rest))).sum =
        (ids.map (fun x =>
          (selectIds ids k REPLICATION_FACTOR).count x * d.length)).sum +
        (ids.map (fun x => addedBytes ids x (k + 1) rest)).sum := by
      rw [← sum_map_add_nat]
      congr 1
    rw [hsplit, sum_map_mul_right,
      sum_count_eq_length ids hnd _ (selectIds_subset ids k _)]
    have h2 := sum_addedBytes_le ids hnd rest (k + 1)
    simp only [List.map_cons, List.sum_cons, Nat.add_mul]
    have hterm : (selectIds ids k REPLICATION_FACTOR).length * d.length ≤
        d.length * REPLICATION_FACTOR := by
      rw [Nat.mul_comm d.length REPLICATION_FACTOR]
      exact Nat.mul_le_mul_right _ (selectIds_length_le ids k)
    exact Nat.add_le_add hterm h2

theorem availableStorage_eq (nodes : List Node) :
    availableStorage nodes =
      (((nodes.map (·.totalStorage)).sum : Nat) : Int) -
        (((nodes.map (·.usedStorage)).sum : Nat) : Int) := by
  induction nodes with
  | nil => simp [availableStorage]
  | cons n rest ih =>
    simp only [availableStorage, List.map_cons, List.sum_cons] at ih ⊢
    push_cast at ih ⊢
    omega

/-- C3 (amended): the aggregate-only precheck guarantees only the aggregate
bound — after every successful distribute over a registry with distinct node
ids, the sum of `usedStorage` over all nodes is at most the sum of
`totalStorage`; the per-node bound can be violated (see the
counterexample). -/
theorem aggregate_capacity_after_distribute (hash : Bytes → Bytes)
    (st : SysState) (data : Bytes) (file : File) (st2 : SysState)
    (hnd : (nodeIds st.nodes).Nodup)
    (hdist : distributeFileBlocks hash st data file = (true, st2)) :
    (st2.nodes.map (·.usedStorage)).sum ≤
      (st2.nodes.map (·.totalStorage)).sum := by
  obtain ⟨hbd, hids, hcap, hns, -, -, -⟩ :=
    distribute_true_inv hash st data file st2 hdist
  have htot : st2.nodes.map (·.totalStorage) =
      st.nodes.map (·.totalStorage) := by
    rw [hns, List.map_map]
    apply List.map_congr_left
    intro m _
    rfl
  have hused : (st2.nodes.map (·.usedStorage)).sum =
      (st.nodes.map (·.usedStorage)).sum +
        ((nodeIds st.nodes).map (fun x =>
          addedBytes (nodeIds st.nodes) x 0
            (splitFileIntoBlocks hash data))).sum := by
    rw [hns, List.map_map]
    have heq : st.nodes.map
        ((fun m => m.usedStorage) ∘
          addUsed (nodeIds st.nodes) (splitFileIntoBlocks hash data)) =
        st.nodes.map (fun m => m.usedStorage +
          addedBytes (nodeIds st.nodes) m.nodeId 0
            (splitFileIntoBlocks hash data)) := by
      apply List.map_congr_left
      intro m _
      rfl
    rw [heq, sum_map_add_nat]
    congr 1
    rw [nodeIds, List.map_map]
    apply congrArg
    apply List.map_congr_left
    intro m _
    rfl
  have hadd := sum_addedBytes_le (nodeIds st.nodes) hnd
    (splitFileIntoBlocks hash data) 0
  have hcap2 : ((((splitFileIntoBlocks hash data).map
      (fun b => b.1.length)).sum * REPLICATION_FACTOR : Nat) : Int) ≤
      availableStorage st.nodes := not_lt.mp hcap
  rw [availableStorage_eq] at hcap2
  have h4 : ((splitFileIntoBlocks hash data).map
      (fun b => b.1.length)).sum * REPLICATION_FACTOR +
      (st.nodes.map (·.usedStorage)).sum ≤
      (st.nodes.map (·.totalStorage)).sum := by
    have h3 : ((((splitFileIntoBlocks hash data).map
        (fun b => b.1.length)).sum * REPLICATION_FACTOR +
        (st.nodes.map (·.usedStorage)).sum : Nat) : Int) ≤
        (((st.nodes.map (·.totalStorage)).sum : Nat) : Int) := by
      push_cast
      push_cast at hcap2
      omega
    exact_mod_cast h3
  rw [hused, htot]
  omega

/-- C3 (amended) witness: the aggregate bound evaluated after a concrete
successful distribute over two nodes of 10 bytes each. -/
theorem aggregate_capacity_witness :
    (((distributeFileBlocks (fun l => l)
        ⟨[⟨"a", 10, 0, []⟩, ⟨"b", 10, 0, []⟩], [], [], []⟩ [1]
        ⟨0, emptyStr⟩).2).nodes.map (·.usedStorage)).sum ≤
      (((distributeFileBlocks (fun l => l)
        ⟨[⟨"a", 10, 0, []⟩, ⟨"b", 10, 0, []⟩], [], [], []⟩ [1]
        ⟨0, emptyStr⟩).2).nodes.map (·.totalStorage)).sum :=
  aggregate_capacity_after_distribute (fun l => l)
    ⟨[⟨"a", 10, 0, []⟩, ⟨"b", 10, 0, []⟩], [], [], []⟩ [1] ⟨0, emptyStr⟩
    _ (by decide) (by decide)

/-! ### Metadata record structure after a distribute -/

/-- The records for block index `i` of a given file (primary and replicas):
`filter_by(file_id=F, block_id=i)` over the metadata store. -/
def recordsFor (blocks : List FileBlock) (F i : Nat) : List FileBlock :=
  blocks.filter (fun b => b.fileId == F && b.blockId == i)

theorem mem_blockRecsAt (file : File) (ids : List String) (i : Nat)
    (d c : Bytes) :
    ∀ r ∈ blockRecsAt file ids i d c,
      r.fileId = file.id ∧ r.blockId = i ∧ r.checksum = c ∧
        r.blockSize = d.length := by
  intro r hr
  unfold blockRecsAt at hr
  cases hs : selectIds ids i REPLICATION_FACTOR with
  | nil => rw [hs] at hr; simp at hr
  | cons p others =>
    rw [hs] at hr
    rcases List.mem_cons.mp hr with h1 | h1
    · subst h1
      exact ⟨rfl, rfl, rfl, rfl⟩
    · rcases List.mem_map.mp h1 with ⟨rnid, _, rfl⟩
      exact ⟨rfl, rfl, rfl, rfl⟩

theorem blockRecsAt_nodeIds (file : File) (ids : List String) (i : Nat)
    (d c : Bytes) :
    (blockRecsAt file ids i d c).map (·.nodeId) =
      selectIds ids i REPLICATION_FACTOR := by
  unfold blockRecsAt
  cases hs : selectIds ids i REPLICATION_FACTOR with
  | nil => simp
  | cons p others =>
    simp only [List.map_cons, List.map_map]
    congr 1
    conv_rhs => rw [← List.map_id others]
    apply List.map_congr_left
    intro x _
    rfl

theorem recordsFor_blockRecsAt_self (file : File) (ids : List String)
    (i : Nat) (d c : Bytes) :
    recordsFor (blockRecsAt file ids i d c) file.id i =
      blockRecsAt file ids i d c := by
  unfold recordsFor
  rw [List.filter_eq_self]
  intro r hr
  obtain ⟨h1, h2, -, -⟩ := mem_blockRecsAt file ids i d c r hr
  simp [h1, h2]

theorem recordsFor_blockRecsAt_other (file : File) (ids : List String)
    (i j : Nat) (d c : Bytes) (hij : i ≠ j) :
    recordsFor (blockRecsAt file ids j d c) file.id i = [] := by
  unfold recordsFor
  rw [List.filter_eq_nil_iff]
  intro r hr
  obtain ⟨-, h2, -, -⟩ := mem_blockRecsAt file ids j d c r hr
  simp [h2]
  intro _
  exact fun hc => hij hc.symm

theorem recordsFor_allRecs (file : File) (ids : List String) :
    ∀ (bd : List (Bytes × Bytes)) (k i : Nat),
      recordsFor (allRecs file ids k bd) file.id i =
        if k ≤ i ∧ i < k + bd.length
        then blockRecsAt file ids i (bd.getD (i - k) ([], [])).1
          (bd.getD (i - k) ([], [])).2
        else []
  | [], k, i => by
    simp only [allRecs, recordsFor, List.filter_nil, List.length_nil]
    rw [if_neg]
    omega
  | (d, c) :: rest, k, i => by
    have happ : recordsFor (allRecs file ids k ((d, c) :: rest)) file.id i =
        recordsFor (blockRecsAt file ids k d c) file.id i ++
          recordsFor (allRecs file ids (k + 1) rest) file.id i := by
      simp [allRecs, recordsFor]
    rw [happ, recordsFor_allRecs file ids rest (k + 1) i]
    by_cases hik : i = k
    · subst hik
      rw [recordsFor_blockRecsAt_self]
      rw [if_neg (by omega), if_pos (by simp only [List.length_cons]; omega)]
      simp
    · rw [recordsFor_blockRecsAt_other file ids i k d c hik]
      simp only [List.nil_append]
      by_cases hin : k + 1 ≤ i ∧ i < k + 1 + rest.length
      · rw [if_pos hin, if_pos (by simp only [List.length_cons]; omega)]
        have hx : i - k = (i - (k + 1)) + 1 := by omega
        rw [hx, List.getD_cons_succ]
      · rw [if_neg hin, if_neg]
        intro hcon
        apply hin
        simp only [List.length_cons] at hcon
        constructor
        · omega
        · omega

theorem mem_allRecs_fileId (file : File) (ids : List String) :
    ∀ (bd : List (Bytes × Bytes)) (k : Nat),
      ∀ r ∈ allRecs file ids k bd, r.fileId = file.id
  | [], k => by simp [allRecs]
  | (d, c) :: rest, k => by
    intro r hr
    simp only [allRecs] at hr
    rcases List.mem_append.mp hr with h1 | h1
    · exact (mem_blockRecsAt file ids k d c r h1).1
    · exact mem_allRecs_fileId file ids rest (k + 1) r h1

theorem allRecs_length (file : File) (ids : List String) (hne : ids ≠ []) :
    ∀ (bd : List (Bytes × Bytes)) (k : Nat),
      (allRecs file ids k bd).length =
        bd.length * min REPLICATION_FACTOR ids.length
  | [], k => by simp [allRecs]
  | (d, c) :: rest, k => by
    have hb : (blockRecsAt file ids k d c).length =
        min REPLICATION_FACTOR ids.length := by
      have h := congrArg List.length (blockRecsAt_nodeIds file ids k d c)
      rw [List.length_map, selectIds_length ids k _ hne] at h
      exact h
    simp only [allRecs, List.length_append, hb,
      allRecs_length file ids hne rest (k + 1), List.length_cons]
    ring

/-- Number of (node, block-index) pairs that hold a retrievable physical copy
for the file, over block indices below `B`. -/
def physCopies (store : PhysStore) (ids : List String) (fid : String)
    (B : Nat) : Nat :=
  ((List.range B).map (fun i =>
    (ids.filter (fun nid => (retrieveBlock store nid fid i).isSome)).length)
    ).sum

theorem length_filter_eq_sum_indicator (p : String → Bool)
    (l : List String) :
    (l.filter p).length = (l.map (fun x => if p x then 1 else 0)).sum := by
  induction l with
  | nil => simp
  | cons a rest ih =>
    cases hp : p a
    · simp [List.filter_cons, hp, ih]
    · simp only [List.filter_cons, hp, if_true, List.length_cons,
        List.map_cons, List.sum_cons, ih]
      omega

theorem filter_mem_length (ids sel : List String) (hnd : ids.Nodup)
    (hsnd : sel.Nodup) (hsub : ∀ x ∈ sel, x ∈ ids) :
    (ids.filter (fun x => decide (x ∈ sel))).length = sel.length := by
  rw [length_filter_eq_sum_indicator]
  have hpt : ids.map (fun x => if decide (x ∈ sel) then 1 else 0) =
      ids.map (fun x => sel.count x) := by
    apply List.map_congr_left
    intro x _
    by_cases hx : x ∈ sel
    · rw [if_pos (by simpa using hx)]
      exact (List.count_eq_one_of_mem hsnd hx).symm
    · rw [if_neg (by simpa using hx)]
      exact (List.count_eq_zero.mpr hx).symm
  rw [hpt]
  exact sum_count_eq_length ids hnd sel hsub

theorem sum_range_const (B c : Nat) :
    ((List.range B).map (fun _ => c)).sum = B * c := by
  induction B with
  | zero => simp
  | succ n ih =>
    rw [List.range_succ]
    simp only [List.map_append, List.sum_append, ih, List.map_cons,
      List.map_nil, List.sum_cons, List.sum_nil]
    ring

/-- C4: after a successful distribute of a fresh file over a registry with
distinct node ids and no pre-existing physical copies for that file, exactly
`B * min(R, liveNodeCount)` block records and as many retrievable physical
copies exist, no copy exists at any index at or beyond `B`, and for each
block index the nodes holding its copies are pairwise distinct. -/
theorem replication_count_and_spread (hash : Bytes → Bytes) (st : SysState)
    (data : Bytes) (file : File) (st2 : SysState)
    (hnd : (nodeIds st.nodes).Nodup)
    (hfreshM : ∀ b ∈ st.blocks, b.fileId ≠ file.id)
    (hfreshP : ∀ (nid : String) (j : Nat),
      retrieveBlock st.store nid file.fileId j = none)
    (hdist : distributeFileBlocks hash st data file = (true, st2)) :
    (st2.blocks.filter (fun b => b.fileId == file.id)).length =
      (splitFileIntoBlocks hash data).length *
        min REPLICATION_FACTOR st.nodes.length
  ∧ physCopies st2.store (nodeIds st.nodes) file.fileId
      (splitFileIntoBlocks hash data).length =
      (splitFileIntoBlocks hash data).length *
        min REPLICATION_FACTOR st.nodes.length
  ∧ (∀ j, (splitFileIntoBlocks hash data).length ≤ j → ∀ nid,
      retrieveBlock st2.store nid file.fileId j = none)
  ∧ (∀ i, ((st2.blocks.filter (fun b =>
      b.fileId == file.id && b.blockId == i)).map (·.nodeId)).Nodup) := by
  obtain ⟨hbd, hids, -, -, hblocks, hlook, -⟩ :=
    distribute_true_inv hash st data file st2 hdist
  have hnlen : (nodeIds st.nodes).length = st.nodes.length :=
    nodeIds_length st.nodes
  refine ⟨?_, ?_, ?_, ?_⟩
  · rw [hblocks, List.filter_append]
    have h1 : st.blocks.filter (fun b => b.fileId == file.id) = [] := by
      rw [List.filter_eq_nil_iff]
      intro b hb
      simpa using hfreshM b hb
    have h2 : (allRecs file (nodeIds st.nodes) 0
        (splitFileIntoBlocks hash data)).filter
        (fun b => b.fileId == file.id) =
        allRecs file (nodeIds st.nodes) 0 (splitFileIntoBlocks hash data)
        := by
      rw [List.filter_eq_self]
      intro b hb
      simpa using mem_allRecs_fileId file (nodeIds st.nodes) _ 0 b hb
    rw [h1, h2, List.nil_append,
      allRecs_length file (nodeIds st.nodes) hids _ 0, hnlen]
  · unfold physCopies
    have hpt : (List.range (splitFileIntoBlocks hash data).length).map
        (fun i => ((nodeIds st.nodes).filter
          (fun nid => (retrieveBlock st2.store nid file.fileId i).isSome)
          ).length) =
        (List.range (splitFileIntoBlocks hash data).length).map
          (fun _ => min REPLICATION_FACTOR st.nodes.length) := by
      apply List.map_congr_left
      intro i hi
      rw [List.mem_range] at hi
      have hfc : (nodeIds st.nodes).filter
          (fun nid => (retrieveBlock st2.store nid file.fileId i).isSome) =
          (nodeIds st.nodes).filter
            (fun nid => decide (nid ∈ selectIds (nodeIds st.nodes) i
              REPLICATION_FACTOR)) := by
        apply List.filter_congr
        intro nid _
        rw [hlook nid file.fileId i]
        by_cases hm : nid ∈ selectIds (nodeIds st.nodes) i
            REPLICATION_FACTOR
        · rw [if_pos ⟨hm, rfl, by omega, by omega⟩]
          simp [hm]
        · rw [if_neg (fun hcon => hm hcon.1), hfreshP nid i]
          simp [hm]
      rw [hfc, filter_mem_length _ _ hnd
        (selectIds_nodup _ i _ hnd) (selectIds_subset _ i _),
        selectIds_length _ i _ hids, hnlen]
    rw [hpt, sum_range_const]
  · intro j hj nid
    rw [hlook nid file.fileId j, if_neg (by
      intro hcon
      omega), hfreshP nid j]
  · intro i
    have hrec : st2.blocks.filter (fun b =>
        b.fileId == file.id && b.blockId == i) =
        recordsFor st2.blocks file.id i := rfl
    rw [hrec, hblocks]
    have happ : recordsFor (st.blocks ++ allRecs file (nodeIds st.nodes) 0
        (splitFileIntoBlocks hash data)) file.id i =
        recordsFor st.blocks file.id i ++
          recordsFor (allRecs file (nodeIds st.nodes) 0
            (splitFileIntoBlocks hash data)) file.id i := by
      simp [recordsFor]
    have h1 : recordsFor st.blocks file.id i = [] := by
      rw [recordsFor, List.filter_eq_nil_iff]
      intro b hb
      simp only [Bool.and_eq_true, beq_iff_eq, not_and]
      intro hc
      exact absurd hc (hfreshM b hb)
    rw [happ, h1, List.nil_append,
      recordsFor_allRecs file (nodeIds st.nodes) _ 0 i]
    by_cases hin : 0 ≤ i ∧ i < 0 + (splitFileIntoBlocks hash data).length
    · rw [if_pos hin, blockRecsAt_nodeIds]
      exact selectIds_nodup _ i _ hnd
    · rw [if_neg hin]
      exact List.nodup_nil

/-- C4 witness: two 10-byte nodes, a fresh 1-byte file: one block, two
copies, two records, distinct nodes per block index. -/
theorem replication_count_witness :
    (((distributeFileBlocks (fun l => l)
        ⟨[⟨"a", 10, 0, []⟩, ⟨"b", 10, 0, []⟩], [], [], []⟩ [5]
        ⟨7, "f"⟩).2).blocks.filter (fun b => b.fileId == (7 : Nat))).length =
      (splitFileIntoBlocks (fun l => l) [5]).length *
        min REPLICATION_FACTOR 2
  ∧ physCopies ((distributeFileBlocks (fun l => l)
        ⟨[⟨"a", 10, 0, []⟩, ⟨"b", 10, 0, []⟩], [], [], []⟩ [5]
        ⟨7, "f"⟩).2).store (nodeIds [⟨"a", 10, 0, []⟩, ⟨"b", 10, 0, []⟩])
        "f" (splitFileIntoBlocks (fun l => l) [5]).length =
      (splitFileIntoBlocks (fun l => l) [5]).length *
        min REPLICATION_FACTOR 2 :=
  have h := replication_count_and_spread (fun l => l)
    ⟨[⟨"a", 10, 0, []⟩, ⟨"b", 10, 0, []⟩], [], [], []⟩ [5] ⟨7, "f"⟩
    _ (by decide) (fun b hb => absurd hb (List.not_mem_nil b))
    (fun nid j => rfl) (by decide)
  ⟨h.1, h.2.1⟩

/-! ### Usage accounting invariant -/

/-- Total size of the block records currently assigned to a node. -/
def usedOf (blocks : List FileBlock) (nid : String) : Nat :=
  ((blocks.filter (fun b => b.nodeId == nid)).map (·.blockSize)).sum

/-- Accounting consistency: every node's counter equals the total size of the
block records (primary and replica) assigned to it. -/
def Consistent (st : SysState) : Prop :=
  ∀ n ∈ st.nodes, n.usedStorage = usedOf st.blocks n.nodeId

instance instDecConsistent (st : SysState) : Decidable (Consistent st) :=
  inferInstanceAs (Decidable (∀ n ∈ st.nodes,
    n.usedStorage = usedOf st.blocks n.nodeId))

theorem usedOf_append (l1 l2 : List FileBlock) (nid : String) :
    usedOf (l1 ++ l2) nid = usedOf l1 nid + usedOf l2 nid := by
  simp [usedOf]

theorem usedOf_cons (b : FileBlock) (rest : List FileBlock) (nid : String) :
    usedOf (b :: rest) nid =
      (if b.nodeId == nid then b.blockSize else 0) + usedOf rest nid := by
  cases hb : b.nodeId == nid <;> simp [usedOf, List.filter_cons, hb]

theorem usedOf_replicas (file : File) (i : Nat) (L : Nat) (c : Bytes)
    (nid : String) :
    ∀ rs : List String,
      usedOf (rs.map (fun rnid =>
        mkReplica file i rnid L c (vpath rnid file.fileId i))) nid =
        rs.count nid * L
  | [] => by simp [usedOf]
  | rnid :: rest => by
    rw [List.map_cons, usedOf_cons, usedOf_replicas file i L c nid rest,
      List.count_cons]
    cases hb : rnid == nid
    · simp [mkReplica, hb]
    · simp [mkReplica, hb, Nat.add_mul]
      omega

theorem usedOf_blockRecsAt (file : File) (ids : List String) (i : Nat)
    (d c : Bytes) (nid : String) :
    usedOf (blockRecsAt file ids i d c) nid =
      (selectIds ids i REPLICATION_FACTOR).count nid * d.length := by
  unfold blockRecsAt
  cases hs : selectIds ids i REPLICATION_FACTOR with
  | nil => simp [usedOf]
  | cons p others =>
    rw [usedOf_cons, usedOf_replicas, List.count_cons]
    cases hb : p == nid
    · simp [mkPrimary, hb]
    · simp [mkPrimary, hb, Nat.add_mul]
      omega

theorem usedOf_allRecs (file : File) (ids : List String) :
    ∀ (bd : List (Bytes × Bytes)) (k : Nat) (nid : String),
      usedOf (allRecs file ids k bd) nid = addedBytes ids nid k bd
  | [], k, nid => by simp [allRecs, addedBytes, usedOf]
  | (d, c) :: rest, k, nid => by
    simp only [allRecs, addedBytes, usedOf_append, usedOf_blockRecsAt,
      usedOf_allRecs file ids rest (k + 1) nid]

theorem deleteGo_nodes (fid : String) :
    ∀ (recs : List FileBlock) (nodes : List Node) (store : PhysStore),
      (deleteGo fid recs nodes store).1 =
        nodes.map (fun m =>
          { m with usedStorage := m.usedStorage - usedOf recs m.nodeId })
  | [], nodes, store => by
    simp only [deleteGo]
    conv_lhs => rw [← List.map_id nodes]
    apply List.map_congr_left
    intro m _
    simp [usedOf]
  | b :: rest, nodes, store => by
    simp only [deleteGo]
    rw [deleteGo_nodes fid rest _ _]
    unfold decUsed
    rw [List.map_map]
    apply List.map_congr_left
    intro m _
    simp only [Function.comp_apply]
    by_cases h : m.nodeId = b.nodeId
    · have hb : (b.nodeId == m.nodeId) = true := by simp [beq_iff_eq, h]
      rw [if_pos h]
      simp only [usedOf_cons, hb, Node.mk.injEq, true_and, and_true]
      simp only [if_true]
      omega
    · have hb : (b.nodeId == m.nodeId) = false := by
        simp only [beq_eq_false_iff_ne, ne_eq]
        intro hc
        exact h hc.symm
      rw [if_neg h]
      simp [usedOf_cons, hb]

theorem usedOf_partition (F : Nat) (l : List FileBlock) (nid : String) :
    usedOf l nid =
      usedOf (l.filter (fun b => b.fileId == F)) nid +
        usedOf (l.filter (fun b => b.fileId ≠ F)) nid := by
  induction l with
  | nil => simp [usedOf]
  | cons b rest ih =>
    by_cases hb : b.fileId = F
    · have h1 : (b.fileId == F) = true := by simp [beq_iff_eq, hb]
      have h2 : decide (b.fileId ≠ F) = false := by simp [hb]
      rw [List.filter_cons, List.filter_cons, h1, h2]
      simp [usedOf_cons, ih]
      omega
    · have h1 : (b.fileId == F) = false := by simp [beq_iff_eq, hb]
      have h2 : decide (b.fileId ≠ F) = true := by simp [hb]
      rw [List.filter_cons, List.filter_cons, h1, h2]
      simp [usedOf_cons, ih]
      omega

/-- Either `distribute` leaves the state unchanged (empty input, failed
precheck, or empty registry), or it succeeds and returns its second
component. -/
theorem distribute_snd_characterization (hash : Bytes → Bytes)
    (st : SysState) (data : Bytes) (file : File) :
    (distributeFileBlocks hash st data file).2 = st ∨
      distributeFileBlocks hash st data file =
        (true, (distributeFileBlocks hash st data file).2) := by
  simp only [distributeFileBlocks]
  by_cases hbd0 : (splitFileIntoBlocks hash data).length = 0
  · rw [if_pos hbd0]
    exact Or.inl rfl
  · rw [if_neg hbd0]
    by_cases hcap : ((((splitFileIntoBlocks hash data).map
        (fun b => b.1.length)).sum * REPLICATION_FACTOR : Nat) : Int) >
        availableStorage st.nodes
    · rw [if_pos hcap]
      exact Or.inl rfl
    · rw [if_neg hcap]
      by_cases hids : nodeIds st.nodes = []
      · cases hbde : splitFileIntoBlocks hash data with
        | nil => exact absurd (congrArg List.length hbde) hbd0
        | cons p rest =>
          obtain ⟨d, c⟩ := p
          rw [storeBlocksGo_nil_ids file d c rest 0 st.nodes st.store []
            hids]
          exact Or.inl rfl
      · obtain ⟨b, ns, so, pend, hsb⟩ :
            ∃ b ns so pend, storeBlocksGo file
              (splitFileIntoBlocks hash data) 0 st.nodes st.store [] =
              (b, ns, so, pend) := ⟨_, _, _, _, rfl⟩
        have hfst : b = true := by
          have h := storeBlocksGo_fst file (splitFileIntoBlocks hash data) 0
            st.nodes st.store [] hids
          rw [hsb] at h
          exact h
        subst hfst
        rw [hsb]
        exact Or.inr rfl

theorem distribute_preserves_consistent (hash : Bytes → Bytes)
    (st : SysState) (data : Bytes) (file : File) (h : Consistent st) :
    Consistent (distributeFileBlocks hash st data file).2 := by
  rcases distribute_snd_characterization hash st data file with h1 | h1
  · rw [h1]
    exact h
  · obtain ⟨hbd, hids, -, hns, hblocks, -, -⟩ :=
      distribute_true_inv hash st data file _ h1
    intro n hn
    rw [hns] at hn
    rcases List.mem_map.mp hn with ⟨m, hm, rfl⟩
    show m.usedStorage + addedBytes (nodeIds st.nodes) m.nodeId 0
        (splitFileIntoBlocks hash data) =
      usedOf (distributeFileBlocks hash st data file).2.blocks m.nodeId
    rw [hblocks, usedOf_append, usedOf_allRecs, h m hm]

theorem delete_preserves_consistent (st : SysState) (file : File)
    (h : Consistent st) :
    Consistent (deleteFileBlocks st file).2 := by
  intro n hn
  simp only [deleteFileBlocks] at hn ⊢
  rw [deleteGo_nodes] at hn
  rcases List.mem_map.mp hn with ⟨m, hm, rfl⟩
  have hA := h m hm
  have hP := usedOf_partition file.id st.blocks m.nodeId
  show m.usedStorage -
      usedOf (st.blocks.filter (fun b => b.fileId == file.id)) m.nodeId =
    usedOf (st.blocks.filter (fun b => b.fileId ≠ file.id)) m.nodeId
  omega

/-- C6: starting from a consistent state, after any sequence of distribute
and delete operations every node's `usedStorage` equals the total size of
the block records currently assigned to it. -/
theorem usage_accounting (hash : Bytes → Bytes) :
    ∀ (ops : List Op) (st : SysState), Consistent st →
      Consistent (applyOps hash ops st)
  | [], st, h => h
  | op :: rest, st, h => by
    apply usage_accounting hash rest
    cases op with
    | distribute data file =>
      exact distribute_preserves_consistent hash st data file h
    | delete file => exact delete_preserves_consistent st file h

/-- C6 witness: a distribute followed by a delete on one concrete node. -/
theorem usage_accounting_witness :
    Consistent (applyOps (fun l => l)
      [Op.distribute [3] ⟨1, "f"⟩, Op.delete ⟨1, "f"⟩]
      ⟨[⟨"a", 10, 0, []⟩], [], [], []⟩) :=
  usage_accounting (fun l => l)
    [Op.distribute [3] ⟨1, "f"⟩, Op.delete ⟨1, "f"⟩]
    ⟨[⟨"a", 10, 0, []⟩], [], [], []⟩ (by decide)

/-! ### Node removal -/

/-- C9: for a registered node, removal fails with the whole state unchanged
when its `usedStorage` is positive; removal of an empty node succeeds,
removes it from the registry, scrubs it from every other node's connection
map, releases its per-node block directory, and touches neither metadata nor
physical storage. -/
theorem node_removal_guard (st : SysState) (nid : String) (n : Node)
    (hfind : findNode st.nodes nid = some n) :
    (0 < n.usedStorage → deleteNode st nid = (false, st))
  ∧ (n.usedStorage = 0 →
      (deleteNode st nid).1 = true
    ∧ nodeIds (deleteNode st nid).2.nodes =
        (nodeIds st.nodes).filter (fun x => x ≠ nid)
    ∧ (∀ m ∈ (deleteNode st nid).2.nodes, ∀ c ∈ m.connections, c.1 ≠ nid)
    ∧ (deleteNode st nid).2.dirs = st.dirs.filter (fun d2 => d2 ≠ nid)
    ∧ (deleteNode st nid).2.blocks = st.blocks
    ∧ (deleteNode st nid).2.store = st.store) := by
  constructor
  · intro hpos
    simp only [deleteNode, hfind]
    rw [if_pos hpos]
  · intro h0
    have hdel : deleteNode st nid =
        (true, { st with
          nodes := (st.nodes.filter (fun m => m.nodeId ≠ nid)).map
            (fun m => { m with
              connections := m.connections.filter (fun c => c.1 ≠ nid) }),
          dirs := st.dirs.filter (fun d2 => d2 ≠ nid) }) := by
      simp only [deleteNode, hfind]
      rw [if_neg (by omega)]
    rw [hdel]
    refine ⟨rfl, ?_, ?_, rfl, rfl, rfl⟩
    · rw [nodeIds_map (fun m =>
        { m with connections := m.connections.filter (fun c => c.1 ≠ nid) })
        (fun m => rfl)]
      show (st.nodes.filter (fun m => m.nodeId ≠ nid)).map (·.nodeId) =
        (st.nodes.map (·.nodeId)).filter (fun x => x ≠ nid)
      induction st.nodes with
      | nil => rfl
      | cons a rest ih =>
        by_cases h : a.nodeId = nid
        · have h1 : decide (a.nodeId ≠ nid) = false := by simp [h]
          rw [List.filter_cons, List.map_cons, List.filter_cons, h1]
          simpa using ih
        · have h1 : decide (a.nodeId ≠ nid) = true := by simp [h]
          rw [List.filter_cons, List.map_cons, List.filter_cons, h1]
          simp only [if_true]
          rw [List.map_cons]
          rw [ih]
    · intro m hm c hc
      simp only [List.mem_map] at hm
      rcases hm with ⟨m0, hm0, rfl⟩
      simp only [List.mem_filter] at hc
      simpa using hc.2

/-- C9 witness: node `a` is empty and removable; its id leaves the registry,
the other node's connection to it is scrubbed, and its directory is
released. -/
theorem node_removal_guard_witness :
    (deleteNode ⟨[⟨"a", 10, 0, [("b", 5)]⟩, ⟨"b", 10, 3, [("a", 5)]⟩], [],
      [], ["a", "b"]⟩ "a").1 = true
  ∧ nodeIds (deleteNode ⟨[⟨"a", 10, 0, [("b", 5)]⟩, ⟨"b", 10, 3, [("a", 5)]⟩],
      [], [], ["a", "b"]⟩ "a").2.nodes =
      (nodeIds [⟨"a", 10, 0, [("b", 5)]⟩, ⟨"b", 10, 3, [("a", 5)]⟩]).filter
        (fun x => x ≠ "a")
  ∧ (deleteNode ⟨[⟨"a", 10, 0, [("b", 5)]⟩, ⟨"b", 10, 3, [("a", 5)]⟩], [],
      [], ["a", "b"]⟩ "a").2.dirs = (["a", "b"] : List String).filter
        (fun d2 => d2 ≠ "a") :=
  have h := node_removal_guard
    ⟨[⟨"a", 10, 0, [("b", 5)]⟩, ⟨"b", 10, 3, [("a", 5)]⟩], [], [],
      ["a", "b"]⟩ "a" ⟨"a", 10, 0, [("b", 5)]⟩ rfl
  have h2 := h.2 rfl
  ⟨h2.1, h2.2.1, h2.2.2.2.1⟩

/-! ### Reconstruction -/

/-- A record's stored copy is checksum-valid in the given physical state:
its node yields bytes whose digest matches the record's stored checksum. -/
def copyValid (hash : Bytes → Bytes) (store : PhysStore) (fid : String)
    (r : FileBlock) : Bool :=
  match retrieveBlock store r.nodeId fid r.blockId with
  | some l => hash l == r.checksum
  | none => false

/-- The acceptance test of the checksum-checked replica loop: retrieved
bytes are truthy and match the replica record's own checksum. -/
def replAccepts (hash : Bytes → Bytes) (store : PhysStore) (fid : String)
    (blockId : Nat) (r : FileBlock) : Bool :=
  match retrieveBlock store r.nodeId fid blockId with
  | some l => !l.isEmpty && (hash l == r.checksum)
  | none => false

/-- The primary record distribute creates for one block (empty selection
yields none). -/
def primRecsAt (file : File) (ids : List String) (i : Nat) (d c : Bytes) :
    List FileBlock :=
  match selectIds ids i REPLICATION_FACTOR with
  | [] => []
  | p :: _ => [mkPrimary file i p d.length c (vpath p file.fileId i)]

/-- All primary records distribute creates, in block order. -/
def primRecs (file : File) (ids : List String) :
    Nat → List (Bytes × Bytes) → List FileBlock
  | _, [] => []
  | k, (d, c) :: rest =>
    primRecsAt file ids k d c ++ primRecs file ids (k + 1) rest

theorem tryReplicasChecked_eq_find (hash : Bytes → Bytes)
    (store : PhysStore) (fid : String) (i : Nat) :
    ∀ reps : List FileBlock,
      tryReplicasChecked hash store fid i reps =
        (reps.find? (replAccepts hash store fid i)).bind
          (fun r => retrieveBlock store r.nodeId fid i)
  | [] => rfl
  | r :: rest => by
    cases hd : retrieveBlock store r.nodeId fid i with
    | none =>
      have ha : replAccepts hash store fid i r = false := by
        simp [replAccepts, hd]
      simp only [tryReplicasChecked, hd]
      rw [List.find?_cons_of_neg _ (by simp [ha])]
      exact tryReplicasChecked_eq_find hash store fid i rest
    | some l =>
      by_cases hl : l = []
      · subst hl
        have ha : replAccepts hash store fid i r = false := by
          simp [replAccepts, hd]
        simp only [tryReplicasChecked, hd, if_true]
        rw [List.find?_cons_of_neg _ (by simp [ha])]
        exact tryReplicasChecked_eq_find hash store fid i rest
      · by_cases hc : hash l = r.checksum
        · have ha : replAccepts hash store fid i r = true := by
            simp [replAccepts, hd, hl, hc]
          simp only [tryReplicasChecked, hd]
          rw [if_neg hl, if_pos hc, List.find?_cons_of_pos _ ha]
          simp [hd]
        · have ha : replAccepts hash store fid i r = false := by
            simp [replAccepts, hd, hl, hc]
          simp only [tryReplicasChecked, hd]
          rw [if_neg hl, if_neg hc,
            List.find?_cons_of_neg _ (by simp [ha])]
          exact tryReplicasChecked_eq_find hash store fid i rest

theorem replAccepts_spec (hash : Bytes → Bytes) (store : PhysStore)
    (fid : String) (i : Nat) (r : FileBlock)
    (h : replAccepts hash store fid i r = true) :
    ∃ l, retrieveBlock store r.nodeId fid i = some l ∧ l ≠ [] ∧
      hash l = r.checksum := by
  unfold replAccepts at h
  cases hd : retrieveBlock store r.nodeId fid i with
  | none => rw [hd] at h; simp at h
  | some l =>
    rw [hd] at h
    simp only [Bool.and_eq_true, beq_iff_eq, Bool.not_eq_true'] at h
    exact ⟨l, rfl, by simpa using h.1, h.2⟩

theorem tryReplicasChecked_none (hash : Bytes → Bytes) (store : PhysStore)
    (fid : String) (i : Nat) (reps : List FileBlock)
    (h : ∀ r ∈ reps, replAccepts hash store fid i r = false) :
    tryReplicasChecked hash store fid i reps = none := by
  rw [tryReplicasChecked_eq_find]
  have hf : reps.find? (replAccepts hash store fid i) = none :=
    List.find?_eq_none.mpr (fun x hx => by simp [h x hx])
  rw [hf]
  rfl

theorem tryReplicasChecked_of_exists (hash : Bytes → Bytes)
    (store : PhysStore) (fid : String) (i : Nat) (reps : List FileBlock)
    (h : ∃ r ∈ reps, replAccepts hash store fid i r = true) :
    ∃ r0 ∈ reps, replAccepts hash store fid i r0 = true ∧
      tryReplicasChecked hash store fid i reps =
        retrieveBlock store r0.nodeId fid i := by
  rw [tryReplicasChecked_eq_find]
  cases hf : reps.find? (replAccepts hash store fid i) with
  | none =>
    rcases h with ⟨r, hr, ha⟩
    have := List.find?_eq_none.mp hf r hr
    simp [ha] at this
  | some r0 =>
    exact ⟨r0, List.mem_of_find?_eq_some hf, List.find?_some hf, rfl⟩

theorem tryReplicasRaw_truthy (store : PhysStore) (fid : String) (i : Nat) :
    ∀ (reps : List FileBlock) (acc : Option Bytes),
      (∃ r ∈ reps, isTruthy (retrieveBlock store r.nodeId fid i) = true) →
      isTruthy (tryReplicasRaw store fid i reps acc) = true
  | [], acc, h => by simp at h
  | r :: rest, acc, h => by
    simp only [tryReplicasRaw]
    cases hd : isTruthy (retrieveBlock store r.nodeId fid i)
    · rw [if_neg (by simp [hd])]
      apply tryReplicasRaw_truthy store fid i rest
      rcases h with ⟨r2, hr2, ht⟩
      rcases List.mem_cons.mp hr2 with h1 | h1
      · subst h1
        rw [ht] at hd
        exact absurd hd (by simp)
      · exact ⟨r2, h1, ht⟩
    · rw [if_pos (by simp [hd])]
      exact hd

theorem tryReplicasRaw_cases (store : PhysStore) (fid : String) (i : Nat) :
    ∀ (reps : List FileBlock) (acc : Option Bytes),
      tryReplicasRaw store fid i reps acc = acc ∨
        ∃ r ∈ reps, tryReplicasRaw store fid i reps acc =
          retrieveBlock store r.nodeId fid i
  | [], acc => Or.inl rfl
  | r :: rest, acc => by
    simp only [tryReplicasRaw]
    cases hd : isTruthy (retrieveBlock store r.nodeId fid i)
    · rw [if_neg (by simp [hd])]
      rcases tryReplicasRaw_cases store fid i rest
          (retrieveBlock store r.nodeId fid i) with h1 | ⟨r2, hr2, h1⟩
      · exact Or.inr ⟨r, List.mem_cons_self r rest, h1⟩
      · exact Or.inr ⟨r2, List.mem_cons_of_mem r hr2, h1⟩
    · rw [if_pos (by simp [hd])]
      exact Or.inr ⟨r, List.mem_cons_self r rest, rfl⟩

theorem copyValid_retrieve (hash : Bytes → Bytes) (store : PhysStore)
    (fid : String) (r : FileBlock) (h : copyValid hash store fid r = true) :
    ∃ l, retrieveBlock store r.nodeId fid r.blockId = some l ∧
      hash l = r.checksum := by
  unfold copyValid at h
  cases hd : retrieveBlock store r.nodeId fid r.blockId with
  | none => rw [hd] at h; simp at h
  | some l =>
    rw [hd] at h
    exact ⟨l, rfl, by simpa using h⟩

theorem isTruthy_some (l : Bytes) (h : l ≠ []) : isTruthy (some l) = true :=
  by
  cases l with
  | nil => exact absurd rfl h
  | cons a rest => simp [isTruthy]

theorem fetchBlockData_ok (hash : Bytes → Bytes) (blocks : List FileBlock)
    (store : PhysStore) (file : File) (hinj : Function.Injective hash)
    (b : FileBlock) (o : Bytes)
    (hchk : b.checksum = hash o) (ho : o ≠ [])
    (hreps : ∀ r ∈ replicasFor blocks file.id b.blockId,
      r.checksum = hash o ∧ r.blockId = b.blockId)
    (hvalid : copyValid hash store file.fileId b = true ∨
      ∃ r ∈ replicasFor blocks file.id b.blockId,
        copyValid hash store file.fileId r = true) :
    fetchBlockData hash blocks store file b = some o := by
  have hrepl_ok : (∃ r ∈ replicasFor blocks file.id b.blockId,
      copyValid hash store file.fileId r = true) →
      tryReplicasChecked hash store file.fileId b.blockId
        (replicasFor blocks file.id b.blockId) = some o := by
    rintro ⟨r, hr, hcv⟩
    obtain ⟨l2, hl2, hhl2⟩ := copyValid_retrieve hash store file.fileId r hcv
    obtain ⟨hrc, hrb⟩ := hreps r hr
    rw [hrb] at hl2
    have hl2o : l2 = o := hinj (by rw [hhl2, hrc])
    have hacc : replAccepts hash store file.fileId b.blockId r = true := by
      unfold replAccepts
      rw [hl2]
      simp only [Bool.and_eq_true, beq_iff_eq, Bool.not_eq_true']
      refine ⟨?_, hhl2⟩
      rw [hl2o]
      simpa using ho
    obtain ⟨r0, hr0, hacc0, heq⟩ := tryReplicasChecked_of_exists hash store
      file.fileId b.blockId _ ⟨r, hr, hacc⟩
    obtain ⟨l0, hl0, hl0ne, hl0c⟩ :=
      replAccepts_spec hash store file.fileId b.blockId r0 hacc0
    rw [heq, hl0]
    have hl0o : l0 = o := hinj (by rw [hl0c, (hreps r0 hr0).1])
    rw [hl0o]
  cases hd0 : retrieveBlock store b.nodeId file.fileId b.blockId with
  | some l =>
    simp only [fetchBlockData, hd0]
    by_cases hl : hash l = b.checksum
    · rw [if_pos hl]
      have hlo : l = o := hinj (by rw [hl, hchk])
      rw [hlo]
    · rw [if_neg hl]
      rcases hvalid with hp | hr
      · obtain ⟨l2, hl2, hc2⟩ :=
          copyValid_retrieve hash store file.fileId b hp
        rw [hd0] at hl2
        have hll : l = l2 := by simpa using hl2
        rw [← hll] at hc2
        exact absurd hc2 hl
      · exact hrepl_ok hr
  | none =>
    rcases hvalid with hp | hrep
    · obtain ⟨l2, hl2, -⟩ := copyValid_retrieve hash store file.fileId b hp
      rw [hd0] at hl2
      exact absurd hl2 (by simp)
    · obtain ⟨r, hr, hcv⟩ := hrep
      obtain ⟨l2, hl2, hhl2⟩ :=
        copyValid_retrieve hash store file.fileId r hcv
      rw [(hreps r hr).2] at hl2
      have hl2o : l2 = o := hinj (by rw [hhl2, (hreps r hr).1])
      have htruthy : isTruthy
          (retrieveBlock store r.nodeId file.fileId b.blockId) = true := by
        rw [hl2]
        exact isTruthy_some l2 (by rw [hl2o]; exact ho)
      have hraw := tryReplicasRaw_truthy store file.fileId b.blockId
        (replicasFor blocks file.id b.blockId) none ⟨r, hr, htruthy⟩
      cases hd1 : tryReplicasRaw store file.fileId b.blockId
          (replicasFor blocks file.id b.blockId) none with
      | none =>
        rw [hd1] at hraw
        simp [isTruthy] at hraw
      | some l1 =>
        simp only [fetchBlockData, hd0, hd1]
        by_cases hc1 : hash l1 = b.checksum
        · have hl1o : l1 = o := hinj (by rw [hc1, hchk])
          rw [if_pos hc1, hl1o]
        · rw [if_neg hc1]
          exact hrepl_ok ⟨r, hr, hcv⟩

theorem fetchBlockData_fail (hash : Bytes → Bytes) (blocks : List FileBlock)
    (store : PhysStore) (file : File)
    (b : FileBlock) (o : Bytes)
    (hchk : b.checksum = hash o)
    (hreps : ∀ r ∈ replicasFor blocks file.id b.blockId,
      r.checksum = hash o ∧ r.blockId = b.blockId)
    (hpi : copyValid hash store file.fileId b = false)
    (hri : ∀ r ∈ replicasFor blocks file.id b.blockId,
      copyValid hash store file.fileId r = false) :
    fetchBlockData hash blocks store file b = none := by
  have hnoacc : ∀ r ∈ replicasFor blocks file.id b.blockId,
      replAccepts hash store file.fileId b.blockId r = false := by
    intro r hr
    cases hx : replAccepts hash store file.fileId b.blockId r with
    | false => rfl
    | true =>
      exfalso
      obtain ⟨l, hl, hlne, hlc⟩ :=
        replAccepts_spec hash store file.fileId b.blockId r hx
      have hcv := hri r hr
      unfold copyValid at hcv
      rw [(hreps r hr).2, hl] at hcv
      simp [hlc] at hcv
  have hchecked := tryReplicasChecked_none hash store file.fileId b.blockId
    _ hnoacc
  cases hd0 : retrieveBlock store b.nodeId file.fileId b.blockId with
  | some l =>
    have hlne : ¬hash l = b.checksum := by
      intro hc
      unfold copyValid at hpi
      rw [hd0] at hpi
      simp [hc] at hpi
    simp only [fetchBlockData, hd0]
    rw [if_neg hlne]
    exact hchecked
  | none =>
    rcases tryReplicasRaw_cases store file.fileId b.blockId
        (replicasFor blocks file.id b.blockId) none with h1 | ⟨r, hr, h1⟩
    · simp only [fetchBlockData, hd0, h1]
    · cases hd1 : retrieveBlock store r.nodeId file.fileId b.blockId with
      | none =>
        rw [hd1] at h1
        simp only [fetchBlockData, hd0, h1]
      | some l =>
        rw [hd1] at h1
        have hlc : ¬hash l = b.checksum := by
          intro hc
          have hcv := hri r hr
          unfold copyValid at hcv
          rw [(hreps r hr).2, hd1] at hcv
          have hx : hash l = r.checksum :=
            hc.trans (hchk.trans (hreps r hr).1.symm)
          simp [hx] at hcv
        simp only [fetchBlockData, hd0, h1]
        rw [if_neg hlc]
        exact hchecked

theorem filterPrim_blockRecsAt (file : File) (ids : List String) (i : Nat)
    (d c : Bytes) :
    (blockRecsAt file ids i d c).filter
      (fun b => b.fileId == file.id && !b.isReplica) =
      primRecsAt file ids i d c := by
  unfold blockRecsAt primRecsAt
  cases hs : selectIds ids i REPLICATION_FACTOR with
  | nil => rfl
  | cons p others =>
    rw [List.filter_cons]
    have hp : ((mkPrimary file i p d.length c
        (vpath p file.fileId i)).fileId == file.id &&
        !(mkPrimary file i p d.length c (vpath p file.fileId i)).isReplica)
        = true := by simp [mkPrimary]
    rw [hp, if_pos rfl]
    have hrest : (others.map (fun rnid => mkReplica file i rnid d.length c
        (vpath rnid file.fileId i))).filter
        (fun b => b.fileId == file.id && !b.isReplica) = [] := by
      rw [List.filter_eq_nil_iff]
      intro r hr
      rcases List.mem_map.mp hr with ⟨rnid, -, rfl⟩
      simp [mkReplica]
    rw [hrest]

theorem filterPrim_allRecs (file : File) (ids : List String) :
    ∀ (bd : List (Bytes × Bytes)) (k : Nat),
      (allRecs file ids k bd).filter
        (fun b => b.fileId == file.id && !b.isReplica) =
        primRecs file ids k bd
  | [], k => rfl
  | (d, c) :: rest, k => by
    simp only [allRecs, primRecs, List.filter_append,
      filterPrim_blockRecsAt, filterPrim_allRecs file ids rest (k + 1)]

theorem primRecs_blockId_ge (file : File) (ids : List String) :
    ∀ (bd : List (Bytes × Bytes)) (k : Nat),
      ∀ b ∈ primRecs file ids k bd, k ≤ b.blockId
  | [], k => by simp [primRecs]
  | (d, c) :: rest, k => by
    intro b hb
    simp only [primRecs] at hb
    rcases List.mem_append.mp hb with h1 | h1
    · unfold primRecsAt at h1
      cases hs : selectIds ids k REPLICATION_FACTOR with
      | nil => rw [hs] at h1; simp at h1
      | cons p others =>
        rw [hs] at h1
        rcases List.mem_singleton.mp h1 with rfl
        simp [mkPrimary]
    · have := primRecs_blockId_ge file ids rest (k + 1) b h1
      omega

theorem primRecs_sorted (file : File) (ids : List String) :
    ∀ (bd : List (Bytes × Bytes)) (k : Nat),
      List.Sorted (fun a b : FileBlock => a.blockId ≤ b.blockId)
        (primRecs file ids k bd)
  | [], k => List.sorted_nil
  | (d, c) :: rest, k => by
    simp only [primRecs]
    unfold primRecsAt
    cases hs : selectIds ids k REPLICATION_FACTOR with
    | nil =>
      simp only [List.nil_append]
      exact primRecs_sorted file ids rest (k + 1)
    | cons p others =>
      simp only [List.singleton_append]
      rw [List.sorted_cons]
      refine ⟨?_, primRecs_sorted file ids rest (k + 1)⟩
      intro b hb
      have := primRecs_blockId_ge file ids rest (k + 1) b hb
      simp only [mkPrimary]
      omega

theorem replicasFor_eq_filter (blocks : List FileBlock) (F i : Nat) :
    replicasFor blocks F i = (recordsFor blocks F i).filter (·.isReplica) :=
  by
  induction blocks with
  | nil => rfl
  | cons b rest ih =>
    simp only [replicasFor, recordsFor, List.filter_cons] at ih ⊢
    cases h1 : (b.fileId == F) <;> cases h2 : (b.blockId == i) <;>
      cases h3 : b.isReplica <;>
        simp_all [replicasFor, recordsFor, List.filter_cons]

theorem filterRepl_blockRecsAt (file : File) (ids : List String) (i : Nat)
    (d c : Bytes) (p : String) (others : List String)
    (hs : selectIds ids i REPLICATION_FACTOR = p :: others) :
    (blockRecsAt file ids i d c).filter (·.isReplica) =
      others.map (fun rnid =>
        mkReplica file i rnid d.length c (vpath rnid file.fileId i)) := by
  unfold blockRecsAt
  rw [hs, List.filter_cons]
  have hp : (mkPrimary file i p d.length c
      (vpath p file.fileId i)).isReplica = false := rfl
  rw [hp]
  simp only [Bool.false_eq_true, if_false]
  rw [List.filter_eq_self]
  intro r hr
  rcases List.mem_map.mp hr with ⟨rnid, -, rfl⟩
  rfl

/-- Everything the per-block loop needs about block index `i` carrying chunk
`p`: the metadata records for the index are exactly the ones distribute
created, the checksum is the chunk's digest, the chunk is non-empty, some
record holds a checksum-valid copy, and selection at `i` is non-empty. -/
def BlockHyp (hash : Bytes → Bytes) (store : PhysStore)
    (blocks : List FileBlock) (file : File) (ids : List String) (i : Nat)
    (p : Bytes × Bytes) : Prop :=
  recordsFor blocks file.id i = blockRecsAt file ids i p.1 p.2 ∧
  p.2 = hash p.1 ∧ p.1 ≠ [] ∧
  (recordsFor blocks file.id i).any
    (fun r => copyValid hash store file.fileId r) = true ∧
  selectIds ids i REPLICATION_FACTOR ≠ []

theorem reconstructGo_primRecs (hash : Bytes → Bytes)
    (blocks : List FileBlock) (store : PhysStore) (file : File)
    (ids : List String) (hinj : Function.Injective hash) :
    ∀ (bd : List (Bytes × Bytes)) (k : Nat) (acc : Bytes),
      (∀ j, j < bd.length →
        BlockHyp hash store blocks file ids (k + j) (bd.getD j ([], []))) →
      reconstructGo hash blocks store file (primRecs file ids k bd) acc =
        (true, acc ++ (bd.map Prod.fst).flatten)
  | [], k, acc, _ => by simp [primRecs, reconstructGo]
  | (d, c) :: rest, k, acc, hj => by
    have h0 := hj 0 (by simp)
    rw [List.getD_cons_zero, Nat.add_zero] at h0
    obtain ⟨hrec0, hchk0, hne0, hany, hsel⟩ := h0
    have hrec : recordsFor blocks file.id k = blockRecsAt file ids k d c :=
      hrec0
    have hchk : c = hash d := hchk0
    have hne : d ≠ [] := hne0
    cases hs : selectIds ids k REPLICATION_FACTOR with
    | nil => exact absurd hs hsel
    | cons p others =>
      have hbrec : blockRecsAt file ids k d c =
          mkPrimary file k p d.length c (vpath p file.fileId k) ::
            others.map (fun rnid =>
              mkReplica file k rnid d.length c (vpath rnid file.fileId k))
          := by
        unfold blockRecsAt
        rw [hs]
      have hpr : primRecs file ids k ((d, c) :: rest) =
          mkPrimary file k p d.length c (vpath p file.fileId k) ::
            primRecs file ids (k + 1) rest := by
        simp only [primRecs, primRecsAt, hs, List.singleton_append]
      have hrepsEq : replicasFor blocks file.id k =
          others.map (fun rnid =>
            mkReplica file k rnid d.length c (vpath rnid file.fileId k)) :=
        by
        rw [replicasFor_eq_filter, hrec,
          filterRepl_blockRecsAt file ids k d c p others hs]
      have hreps : ∀ r ∈ replicasFor blocks file.id k,
          r.checksum = hash d ∧ r.blockId = k := by
        intro r hr
        rw [hrepsEq] at hr
        rcases List.mem_map.mp hr with ⟨rnid, -, rfl⟩
        exact ⟨hchk ▸ rfl, rfl⟩
      have hvalid : copyValid hash store file.fileId
            (mkPrimary file k p d.length c (vpath p file.fileId k)) = true ∨
          ∃ r ∈ replicasFor blocks file.id k,
            copyValid hash store file.fileId r = true := by
        rw [hrec, hbrec] at hany
        rcases List.any_eq_true.mp hany with ⟨r, hrm, hcv⟩
        rcases List.mem_cons.mp hrm with h1 | h1
        · subst h1
          exact Or.inl hcv
        · refine Or.inr ⟨r, ?_, hcv⟩
          rw [hrepsEq]
          exact h1
      have hfetch := fetchBlockData_ok hash blocks store file hinj
        (mkPrimary file k p d.length c (vpath p file.fileId k)) d
        hchk hne hreps hvalid
      rw [hpr]
      simp only [reconstructGo, hfetch]
      rw [reconstructGo_primRecs hash blocks store file ids hinj rest
        (k + 1) (acc ++ d) ?_]
      · simp
      · intro j hjlen
        have h2 := hj (j + 1) (by simpa using Nat.succ_lt_succ hjlen)
        rw [List.getD_cons_succ] at h2
        have hidx : k + (j + 1) = k + 1 + j := by omega
        rw [hidx] at h2
        exact h2

theorem reconstructGo_fail (hash : Bytes → Bytes)
    (blocks : List FileBlock) (store : PhysStore) (file : File) :
    ∀ (ps : List FileBlock) (acc : Bytes),
      (∃ b ∈ ps, fetchBlockData hash blocks store file b = none) →
      (reconstructGo hash blocks store file ps acc).1 = false
  | [], acc, h => by simp at h
  | b :: rest, acc, h => by
    cases hf : fetchBlockData hash blocks store file b with
    | none => simp [reconstructGo, hf]
    | some l =>
      simp only [reconstructGo, hf]
      apply reconstructGo_fail hash blocks store file rest
      rcases h with ⟨b2, hb2, hnone⟩
      rcases List.mem_cons.mp hb2 with h1 | h1
      · subst h1
        rw [hf] at hnone
        exact absurd hnone (by simp)
      · exact ⟨b2, h1, hnone⟩

theorem primRecs_mem_of_lt (file : File) (ids : List String) :
    ∀ (bd : List (Bytes × Bytes)) (k j : Nat), j < bd.length →
      selectIds ids (k + j) REPLICATION_FACTOR ≠ [] →
      ∃ b, b ∈ primRecs file ids k bd ∧
        b ∈ blockRecsAt file ids (k + j) (bd.getD j ([], [])).1
          (bd.getD j ([], [])).2 ∧
        b.blockId = k + j ∧ b.checksum = (bd.getD j ([], [])).2
  | [], k, j, hj, _ => by simp at hj
  | (d, c) :: rest, k, j, hj, hsel => by
    cases j with
    | zero =>
      rw [Nat.add_zero] at hsel ⊢
      cases hs : selectIds ids k REPLICATION_FACTOR with
      | nil => exact absurd hs hsel
      | cons p others =>
        refine ⟨mkPrimary file k p d.length c (vpath p file.fileId k),
          ?_, ?_, rfl, rfl⟩
        · simp only [primRecs, primRecsAt, hs, List.singleton_append]
          exact List.mem_cons_self _ _
        · rw [List.getD_cons_zero]
          unfold blockRecsAt
          rw [hs]
          exact List.mem_cons_self _ _
    | succ j2 =>
      have hidx : k + (j2 + 1) = k + 1 + j2 := by omega
      rw [hidx] at hsel
      obtain ⟨b, hb1, hb2, hb3, hb4⟩ := primRecs_mem_of_lt file ids rest
        (k + 1) j2 (by simpa using Nat.lt_of_succ_lt_succ hj) hsel
      refine ⟨b, ?_, ?_, ?_, ?_⟩
      · simp only [primRecs]
        exact List.mem_append_right _ hb1
      · rw [List.getD_cons_succ, hidx]
        exact hb2
      · rw [hidx]
        exact hb3
      · rw [List.getD_cons_succ]
        exact hb4

theorem recordsFor_fresh (blocks : List FileBlock) (file : File) (i : Nat)
    (hfresh : ∀ b ∈ blocks, b.fileId ≠ file.id) :
    recordsFor blocks file.id i = [] := by
  rw [recordsFor, List.filter_eq_nil_iff]
  intro b hb
  simp only [Bool.and_eq_true, beq_iff_eq, not_and]
  intro hc
  exact absurd hc (hfresh b hb)

theorem primRecs_ne_nil (file : File) (ids : List String)
    (bd : List (Bytes × Bytes)) (hbd : bd ≠ []) (hids : ids ≠ []) :
    primRecs file ids 0 bd ≠ [] := by
  cases bd with
  | nil => exact absurd rfl hbd
  | cons q rest =>
    obtain ⟨d, c⟩ := q
    simp only [primRecs]
    cases hs : selectIds ids 0 REPLICATION_FACTOR with
    | nil => exact absurd hs (selectIds_ne_nil ids 0 _ hids rep_factor_pos)
    | cons p others =>
      simp [primRecsAt, hs]

theorem primaryBlocks_dist (st2x : SysState)
    (blocks1 : List FileBlock) (file : File) (ids : List String)
    (bd : List (Bytes × Bytes))
    (heq : st2x.blocks = blocks1 ++ allRecs file ids 0 bd)
    (hfresh : ∀ b ∈ blocks1, b.fileId ≠ file.id) :
    primaryBlocks st2x file = primRecs file ids 0 bd := by
  have hfilter : st2x.blocks.filter
      (fun b => b.fileId == file.id && !b.isReplica) =
      primRecs file ids 0 bd := by
    rw [heq, List.filter_append]
    have h1 : blocks1.filter
        (fun b => b.fileId == file.id && !b.isReplica) = [] := by
      rw [List.filter_eq_nil_iff]
      intro b hb
      simp only [Bool.and_eq_true, beq_iff_eq, not_and]
      intro hc
      exact absurd hc (hfresh b hb)
    rw [h1, List.nil_append, filterPrim_allRecs]
  show List.insertionSort (fun a b => a.blockId ≤ b.blockId)
    (st2x.blocks.filter (fun b => b.fileId == file.id && !b.isReplica)) = _
  rw [hfilter]
  exact List.Sorted.insertionSort_eq (primRecs_sorted file _ _ 0)

theorem recordsFor_dist (blocks1 blocks2 : List FileBlock) (file : File)
    (ids : List String) (bd : List (Bytes × Bytes))
    (heq : blocks2 = blocks1 ++ allRecs file ids 0 bd)
    (hfresh : ∀ b ∈ blocks1, b.fileId ≠ file.id) (i : Nat)
    (hi : i < bd.length) :
    recordsFor blocks2 file.id i =
      blockRecsAt file ids i (bd.getD i ([], [])).1 (bd.getD i ([], [])).2
    := by
  have happ : recordsFor blocks2 file.id i =
      recordsFor blocks1 file.id i ++
        recordsFor (allRecs file ids 0 bd) file.id i := by
    rw [heq]
    simp [recordsFor]
  rw [happ, recordsFor_fresh blocks1 file i hfresh, List.nil_append,
    recordsFor_allRecs, if_pos (by omega : 0 ≤ i ∧ i < 0 + bd.length)]
  rw [Nat.sub_zero]

/-- Common success direction: after a successful distribute of a fresh file,
any physical state that keeps one checksum-valid copy per block index lets
reconstruct return exactly the original bytes. -/
theorem reconstruct_of_valid (hash : Bytes → Bytes)
    (hinj : Function.Injective hash) (st : SysState) (data : Bytes)
    (file : File) (st2 : SysState) (s2 : PhysStore)
    (hfresh : ∀ b ∈ st.blocks, b.fileId ≠ file.id)
    (hdist : distributeFileBlocks hash st data file = (true, st2))
    (hvalid : ∀ i, i < (splitFileIntoBlocks hash data).length →
      (recordsFor st2.blocks file.id i).any
        (fun r => copyValid hash s2 file.fileId r) = true) :
    reconstructFile hash { st2 with store := s2 } file = (true, data) := by
  obtain ⟨hbd, hids, -, -, hblocks, -, -⟩ :=
    distribute_true_inv hash st data file st2 hdist
  have hprimary := primaryBlocks_dist { st2 with store := s2 }
    st.blocks file (nodeIds st.nodes) (splitFileIntoBlocks hash data)
    hblocks hfresh
  have hrecFor := recordsFor_dist st.blocks st2.blocks file
    (nodeIds st.nodes) (splitFileIntoBlocks hash data) hblocks hfresh
  have hhyp : ∀ j, j < (splitFileIntoBlocks hash data).length →
      BlockHyp hash s2 st2.blocks file (nodeIds st.nodes) (0 + j)
        ((splitFileIntoBlocks hash data).getD j ([], [])) := by
    intro j hj
    have hmem : (splitFileIntoBlocks hash data).getD j ([], []) ∈
        splitFileIntoBlocks hash data := by
      rw [List.getD_eq_getElem _ _ hj]
      exact List.getElem_mem hj
    obtain ⟨hsig, hnonempty, -⟩ := split_mem hash data _ hmem
    rw [Nat.zero_add]
    exact ⟨hrecFor j hj, hsig, hnonempty, hvalid j hj,
      selectIds_ne_nil _ j _ hids rep_factor_pos⟩
  have hgo := reconstructGo_primRecs hash st2.blocks s2 file
    (nodeIds st.nodes) hinj (splitFileIntoBlocks hash data) 0 [] hhyp
  show (if (primaryBlocks { st2 with store := s2 } file).isEmpty
    then ((false, []) : Bool × Bytes)
    else reconstructGo hash st2.blocks s2 file
      (primaryBlocks { st2 with store := s2 } file) []) = (true, data)
  rw [hprimary, if_neg (by
    simpa [List.isEmpty_iff] using
      primRecs_ne_nil file (nodeIds st.nodes)
        (splitFileIntoBlocks hash data) hbd hids)]
  rw [hgo, List.nil_append, split_flatten]

/-- C1: round trip.  For a fresh file, if distribute succeeds, then for any
later physical state in which every block index still has at least one
checksum-valid retrievable copy among its records, reconstruct writes
exactly the original bytes to the output sink and returns success; and for a
zero-length input, distribute fails explicitly, leaving the state
unchanged.  The digest is assumed collision-free (injective). -/
theorem round_trip (hash : Bytes → Bytes) (hinj : Function.Injective hash) :
    (∀ (st : SysState) (data : Bytes) (file : File) (st2 : SysState)
      (s2 : PhysStore),
      (∀ b ∈ st.blocks, b.fileId ≠ file.id) →
      distributeFileBlocks hash st data file = (true, st2) →
      (∀ i, i < (splitFileIntoBlocks hash data).length →
        (recordsFor st2.blocks file.id i).any
          (fun r => copyValid hash s2 file.fileId r) = true) →
      reconstructFile hash { st2 with store := s2 } file = (true, data))
  ∧ (∀ (st : SysState) (file : File),
      distributeFileBlocks hash st [] file = (false, st)) :=
  ⟨fun st data file st2 s2 hfresh hdist hvalid =>
    reconstruct_of_valid hash hinj st data file st2 s2 hfresh hdist hvalid,
    fun st file =>
      distribute_of_split_nil hash st [] file (split_nil hash)⟩

/-- C1 witness: two 10-byte nodes, input `[7, 8]`, uncorrupted store:
reconstruct returns exactly the original bytes. -/
theorem round_trip_witness :
    reconstructFile (fun l => l)
      (distributeFileBlocks (fun l => l)
        ⟨[⟨"a", 10, 0, []⟩, ⟨"b", 10, 0, []⟩], [], [], []⟩ [7, 8]
        ⟨1, "f"⟩).2 ⟨1, "f"⟩ = (true, [7, 8]) :=
  (round_trip (fun l => l) (fun a b h => h)).1
    ⟨[⟨"a", 10, 0, []⟩, ⟨"b", 10, 0, []⟩], [], [], []⟩ [7, 8] ⟨1, "f"⟩
    (distributeFileBlocks (fun l => l)
      ⟨[⟨"a", 10, 0, []⟩, ⟨"b", 10, 0, []⟩], [], [], []⟩ [7, 8] ⟨1, "f"⟩).2
    (distributeFileBlocks (fun l => l)
      ⟨[⟨"a", 10, 0, []⟩, ⟨"b", 10, 0, []⟩], [], [], []⟩ [7, 8]
      ⟨1, "f"⟩).2.store
    (fun b hb => absurd hb (List.not_mem_nil b))
    (by decide) (by decide)

/-- C7: checksum fallback.  After a successful distribute of a fresh file:
when every block index still has some checksum-valid candidate (primary or
replica), reconstruct yields exactly the original bytes even if primaries
are corrupted; when at some index no candidate is checksum-valid,
reconstruct fails.  In addition, the checksum-checked replica loop accepts
exactly the bytes of the first replica whose truthy retrieved bytes match
that replica record's own stored checksum. -/
theorem checksum_fallback (hash : Bytes → Bytes)
    (hinj : Function.Injective hash) :
    (∀ (st : SysState) (data : Bytes) (file : File) (st2 : SysState)
      (s2 : PhysStore),
      (∀ b ∈ st.blocks, b.fileId ≠ file.id) →
      distributeFileBlocks hash st data file = (true, st2) →
      ((∀ i, i < (splitFileIntoBlocks hash data).length →
          (recordsFor st2.blocks file.id i).any
            (fun r => copyValid hash s2 file.fileId r) = true) →
        reconstructFile hash { st2 with store := s2 } file = (true, data))
      ∧ ((∃ i, i < (splitFileIntoBlocks hash data).length ∧
          ∀ r ∈ recordsFor st2.blocks file.id i,
            copyValid hash s2 file.fileId r = false) →
        (reconstructFile hash { st2 with store := s2 } file).1 = false))
  ∧ (∀ (store : PhysStore) (fid : String) (i : Nat)
      (reps : List FileBlock),
      tryReplicasChecked hash store fid i reps =
        (reps.find? (replAccepts hash store fid i)).bind
          (fun r => retrieveBlock store r.nodeId fid i)) := by
  constructor
  · intro st data file st2 s2 hfresh hdist
    constructor
    · exact fun hvalid =>
        reconstruct_of_valid hash hinj st data file st2 s2 hfresh hdist
          hvalid
    · rintro ⟨i, hi, hallinv⟩
      obtain ⟨hbd, hids, -, -, hblocks, -, -⟩ :=
        distribute_true_inv hash st data file st2 hdist
      have hprimary := primaryBlocks_dist { st2 with store := s2 }
        st.blocks file (nodeIds st.nodes) (splitFileIntoBlocks hash data)
        hblocks hfresh
      have hrecFor := recordsFor_dist st.blocks st2.blocks file
        (nodeIds st.nodes) (splitFileIntoBlocks hash data) hblocks hfresh
        i hi
      obtain ⟨b, hbP, hbB, hb3, hb4⟩ := primRecs_mem_of_lt file
        (nodeIds st.nodes) (splitFileIntoBlocks hash data) 0 i hi
        (by rw [Nat.zero_add]
            exact selectIds_ne_nil _ i _ hids rep_factor_pos)
      rw [Nat.zero_add] at hbB hb3
      have hmem : (splitFileIntoBlocks hash data).getD i ([], []) ∈
          splitFileIntoBlocks hash data := by
        rw [List.getD_eq_getElem _ _ hi]
        exact List.getElem_mem hi
      obtain ⟨hsig, hnonempty, -⟩ := split_mem hash data _ hmem
      have hbRec : b ∈ recordsFor st2.blocks file.id i := by
        rw [hrecFor]
        exact hbB
      have hrepsub : ∀ r ∈ replicasFor st2.blocks file.id b.blockId,
          r ∈ recordsFor st2.blocks file.id b.blockId := by
        intro r hr
        rw [replicasFor_eq_filter] at hr
        exact List.mem_of_mem_filter hr
      have hreps : ∀ r ∈ replicasFor st2.blocks file.id b.blockId,
          r.checksum =
            hash ((splitFileIntoBlocks hash data).getD i ([], [])).1 ∧
          r.blockId = b.blockId := by
        intro r hr
        have hr2 := hrepsub r hr
        rw [hb3, hrecFor] at hr2
        obtain ⟨-, hrb, hrc, -⟩ := mem_blockRecsAt _ _ _ _ _ r hr2
        exact ⟨hrc.trans hsig, by rw [hrb, hb3]⟩
      have hpi : copyValid hash s2 file.fileId b = false := hallinv b hbRec
      have hri : ∀ r ∈ replicasFor st2.blocks file.id b.blockId,
          copyValid hash s2 file.fileId r = false := by
        intro r hr
        apply hallinv
        have hr2 := hrepsub r hr
        rw [hb3] at hr2
        exact hr2
      have hfail := fetchBlockData_fail hash st2.blocks s2 file b _
        (hb4.trans hsig) hreps hpi hri
      show (if (primaryBlocks { st2 with store := s2 } file).isEmpty
        then ((false, []) : Bool × Bytes)
        else reconstructGo hash st2.blocks s2 file
          (primaryBlocks { st2 with store := s2 } file) []).1 = false
      by_cases hemp : (primaryBlocks { st2 with store := s2 } file).isEmpty
      · rw [if_pos hemp]
      · rw [if_neg hemp]
        apply reconstructGo_fail
        refine ⟨b, ?_, hfail⟩
        rw [hprimary]
        exact hbP
  · intro store fid i reps
    exact tryReplicasChecked_eq_find hash store fid i reps

/-- C7 witness: distribute `[7]` over two nodes, then corrupt the primary
copy (node `a`, block 0); reconstruct still returns the original bytes from
the intact replica on node `b`. -/
theorem checksum_fallback_witness :
    reconstructFile (fun l => l)
      { (distributeFileBlocks (fun l => l)
          ⟨[⟨"a", 10, 0, []⟩, ⟨"b", 10, 0, []⟩], [], [], []⟩ [7]
          ⟨1, "f"⟩).2 with
        store := (("a", "f", 0), [9, 9]) ::
          (distributeFileBlocks (fun l => l)
            ⟨[⟨"a", 10, 0, []⟩, ⟨"b", 10, 0, []⟩], [], [], []⟩ [7]
            ⟨1, "f"⟩).2.store } ⟨1, "f"⟩ = (true, [7]) :=
  ((checksum_fallback (fun l => l) (fun a b h => h)).1
    ⟨[⟨"a", 10, 0, []⟩, ⟨"b", 10, 0, []⟩], [], [], []⟩ [7] ⟨1, "f"⟩
    (distributeFileBlocks (fun l => l)
      ⟨[⟨"a", 10, 0, []⟩, ⟨"b", 10, 0, []⟩], [], [], []⟩ [7] ⟨1, "f"⟩).2
    ((("a", "f", 0), [9, 9]) ::
      (distributeFileBlocks (fun l => l)
        ⟨[⟨"a", 10, 0, []⟩, ⟨"b", 10, 0, []⟩], [], [], []⟩ [7]
        ⟨1, "f"⟩).2.store)
    (fun b hb => absurd hb (List.not_mem_nil b))
    (by decide)).1 (by decide)

end CloudStore
